import Mathlib

/-!
Verification of `src/patcherex/patcherex.py` against its specification.

The byte string `self.ncontent` is modelled as a `List Nat` (one entry per
byte).  Python's exceptions are modelled by the `PErr` type; a function that
can raise returns `Except PErr _` when the partially mutated state does not
matter, and `_ × Option PErr` when it does (Python keeps the mutations made
before the raise).  External collaborators (angr, capstone, the assembler in
`utils`) are abstracted as an `Oracle` of functions, as listed in §6 of the
spec.  Helpers from the repository's `utils` module, which is not part of the
sources, are modelled from the spec and marked as such.
-/

namespace Patcherex

/-- Modelled from the spec: `utils.str_overwrite(tstr, new, pos)` returns
`tstr[:pos] + new + tstr[pos+len(new):]`, i.e. it writes `new` over `tstr`
at offset `pos` (§4.1 `patch(va, bytes)` bottoms out in it). -/
def str_overwrite (tstr new : List Nat) (pos : Nat) : List Nat :=
  tstr.take pos ++ new ++ tstr.drop (pos + new.length)

/-- Modelled from the spec: `utils.str_overwrite` with its default `pos=None`
appends at the end of the string (used at lines 152 and 258 to append the
relocated headers and the added data at end-of-file). -/
def str_append (tstr new : List Nat) : List Nat :=
  tstr ++ new

/-- Modelled from the spec: `utils.pad_str(s, align)` pads `s` with NUL bytes
to a multiple of `align` (§4.2 step 1 "pad image to 16-byte alignment"). -/
def pad_str (s : List Nat) (align : Nat) : List Nat :=
  s ++ List.replicate ((align - s.length % align) % align) 0

/-- Python's `s.ljust(n, "\x00")` (line 248). -/
def ljust (s : List Nat) (n : Nat) : List Nat :=
  s ++ List.replicate (n - s.length) 0

/-- Modelled from the spec: `utils.round_up_to_page` rounds up to the page
size `0x1000` (§3: `curr_file_off` "starts at a page-aligned offset past the
original image plus space for the two new program headers"). -/
def round_up_to_page (n : Nat) : Nat :=
  ((n + 0xfff) / 0x1000) * 0x1000

/-- `struct.pack("<I", x)`: four little-endian bytes. -/
def pack_u32 (x : Nat) : List Nat :=
  [x % 256, x / 256 % 256, x / 65536 % 256, x / 16777216 % 256]

/-- `struct.pack("<H", x)`: two little-endian bytes. -/
def pack_u16 (x : Nat) : List Nat :=
  [x % 256, x / 256 % 256]

/-- Little-endian `u32` read at `pos` (fields of `struct.unpack`). -/
def read_u32 (s : List Nat) (pos : Nat) : Nat :=
  s.getD pos 0 + 256 * s.getD (pos + 1) 0 + 65536 * s.getD (pos + 2) 0 +
    16777216 * s.getD (pos + 3) 0

/-- Little-endian `u16` read at `pos`. -/
def read_u16 (s : List Nat) (pos : Nat) : Nat :=
  s.getD pos 0 + 256 * s.getD (pos + 1) 0

/-- The exceptions the Python code can raise. -/
inductive PErr where
  | missingBlock
  | invalidVAddr
  | detour (msg : String)
  | assertionError
  | indexError
  | typeError
  | structError
deriving DecidableEq, Repr

/-- The four patch kinds of the registry (classes at lines 34-57). -/
inductive Patch where
  | inline (instruction_addr : Nat) (new_asm : String) (name : Option String)
  | addData (data : List Nat) (name : Option String)
  | addCode (asm_code : String) (name : Option String)
  | insertCode (addr : Nat) (code : String) (name : Option String)
deriving DecidableEq, Repr

/-- One program-header record: eight 32-bit words (line 174). -/
structure Segment where
  p_type : Nat
  p_offset : Nat
  p_vaddr : Nat
  p_paddr : Nat
  p_filesz : Nat
  p_memsz : Nat
  p_flags : Nat
  p_align : Nat
deriving DecidableEq, Repr

/-- `struct.pack("<IIIIIIII", *segment)`. -/
def pack_segment (s : Segment) : List Nat :=
  pack_u32 s.p_type ++ pack_u32 s.p_offset ++ pack_u32 s.p_vaddr ++
    pack_u32 s.p_paddr ++ pack_u32 s.p_filesz ++ pack_u32 s.p_memsz ++
    pack_u32 s.p_flags ++ pack_u32 s.p_align

/-- A decoded instruction as produced by `utils.decompile` (capstone):
address, raw bytes, and the `overwritten` tag the detour engine stores on it
(lines 405-414; `""` before classification). -/
structure Insn where
  address : Nat
  bytes : List Nat
  overwritten : String
deriving DecidableEq, Repr

/-- An angr basic-block object: `project.factory.block(...)` (raw bytes and
byte size). -/
structure Block where
  bytes : List Nat
  size : Nat
deriving DecidableEq, Repr

/-- A CFG node: start address plus contained instruction addresses (§6
`CFG.blocks()`). -/
structure Node where
  addr : Nat
  instruction_addrs : List Nat

/-- The external collaborators of §6, as one record of oracles.
`bytes_to_comparable_str ibytes off` is the textual mnemonic+operands of the
first instruction decoded from `ibytes` at base `off` with the address prefix
dropped (modelled from the spec, §4.4: `utils.instruction_to_str` of
`utils.decompile(ibytes, offset)[0]`, whitespace-split, tokens from index 2
rejoined). -/
structure Oracle where
  compile_asm : String → Nat → List (String × Nat) → List Nat
  compile_asm_fake_symbol : String → Nat → List Nat
  compile_jmp : Nat → Nat → List Nat
  decompile : List Nat → Nat → List Insn
  bytes_to_comparable_str : List Nat → Nat → String
  capstone_to_nasm : Insn → String
  factory_block : Nat → Option Nat → Block
  addr_to_offset : Nat → Option Nat
  get_any_node : Nat → Node

/-- Where the added segments live (lines 85-86). -/
def added_code_segment : Nat := 0x09000000

/-- Where the added data segment lives (line 86). -/
def added_data_segment : Nat := 0x09100000

/-- The bytes of `self.patched_tag = "SHELLPHISH\x00"` (line 82). -/
def patched_tag : List Nat :=
  [0x53, 0x48, 0x45, 0x4c, 0x4c, 0x50, 0x48, 0x49, 0x53, 0x48, 0x00]

/-- The mutable state of a `Patcher` object (fields set in `__init__`,
lines 69-108). -/
structure PatcherSt where
  ocontent : List Nat
  ncontent : List Nat
  original_header_end : Option Nat
  patches : List Patch
  name_map : List (String × Nat)
  added_code : List Nat
  added_data : List Nat
  curr_code_position : Nat
  curr_data_position : Nat
  curr_file_position : Nat
  added_code_file_start : Option Nat
  added_data_file_start : Option Nat
  ordered_nodes : List Nat
deriving Repr

/-- `is_patched` (lines 135-136): compare the slice at `0x34` with the tag. -/
def is_patched (ncontent : List Nat) : Bool :=
  (ncontent.drop 0x34).take patched_tag.length = patched_tag

/-- `dump_segments` (lines 159-191): parse the fixed-layout ELF header, then
read `phnum` 32-byte program headers at `phoff`; `assert phnum != 0`,
`assert phentsize == 32`, and `assert p_type in pt_types` for each record.
`struct.unpack` on a short buffer raises `struct.error`, hence the length
guards.  Only the fields the function goes on to use are modelled. -/
def dump_segments (ncontent : List Nat) : Except PErr (List Segment) :=
  if ncontent.length < 52 then .error .structError
  else
    let cgcef_phoff := read_u32 ncontent 28
    let cgcef_phentsize := read_u16 ncontent 42
    let cgcef_phnum := read_u16 ncontent 44
    if cgcef_phnum = 0 then .error .assertionError
    else if cgcef_phentsize ≠ 32 then .error .assertionError
    else
      (List.range cgcef_phnum).mapM (fun i =>
        let base := cgcef_phoff + 32 * i
        if ncontent.length < base + 32 then .error .structError
        else
          let seg : Segment :=
            ⟨read_u32 ncontent base, read_u32 ncontent (base + 4),
             read_u32 ncontent (base + 8), read_u32 ncontent (base + 12),
             read_u32 ncontent (base + 16), read_u32 ncontent (base + 20),
             read_u32 ncontent (base + 24), read_u32 ncontent (base + 28)⟩
          if seg.p_type = 0 ∨ seg.p_type = 1 ∨ seg.p_type = 6 ∨
              seg.p_type = 0x6474e551 ∨ seg.p_type = 0x6ccccccc then
            .ok seg
          else .error .assertionError)

/-- `setup_headers` (lines 138-157) as a function of the original file bytes:
it starts by resetting `ncontent` to `ocontent`, returns unchanged when the
patched marker is present, and otherwise pads to 16 bytes, redirects the
program-header pointer at `0x1C` to end-of-file, appends a verbatim copy of
every original program header, records `original_header_end`, and stamps the
tag at `0x34`.  Returns the new `ncontent` and the recorded
`original_header_end` (`none` on the already-patched early return, where the
field is left untouched). -/
def setup_headers (ocontent : List Nat) : Except PErr (List Nat × Option Nat) :=
  let ncontent := ocontent
  if is_patched ncontent then .ok (ncontent, none)
  else
    match dump_segments ncontent with
    | .error e => .error e
    | .ok segments =>
      let nc1 := pad_str ncontent 0x10
      let nc2 := str_overwrite nc1 (pack_u32 nc1.length) 0x1C
      let nc3 := segments.foldl (fun acc seg => str_append acc (pack_segment seg)) nc2
      let original_header_end := nc3.length
      let nc4 := str_overwrite nc3 patched_tag 0x34
      .ok (nc4, some original_header_end)

/-- `setup_headers` as it acts on the `Patcher` object. -/
def setup_headers_run (st : PatcherSt) : Except PErr PatcherSt :=
  match setup_headers st.ocontent with
  | .error e => .error e
  | .ok (nc, ohe) =>
    .ok { st with
          ncontent := nc,
          original_header_end :=
            match ohe with
            | some v => some v
            | none => st.original_header_end }

/-- `set_added_segment_headers` (lines 193-206): assert the tag, build the
two added program-header records from the current layout fields, write them
at `original_header_end` and `original_header_end + 32` (code first, RX
`0x5`, then data, RW `0x6`), and bump the 16-bit count at `0x2c` by 2
(`struct.pack("<H", ...)` would raise past `0xffff`). -/
def set_added_segment_headers (st : PatcherSt) : PatcherSt × Option PErr :=
  if ¬ ((st.ncontent.drop 0x34).take patched_tag.length = patched_tag) then
    (st, some .assertionError)
  else
    match st.added_data_file_start, st.added_code_file_start,
        st.original_header_end with
    | some adfs, some acfs, some ohe =>
      let data_segment_header : Segment :=
        ⟨1, adfs, added_data_segment, 0, st.added_data.length,
         st.added_data.length, 0x6, 0x0⟩
      let code_segment_header : Segment :=
        ⟨1, acfs, added_code_segment, 0, st.added_code.length,
         st.added_code.length, 0x5, 0x0⟩
      let nc1 := str_overwrite st.ncontent (pack_segment code_segment_header) ohe
      let nc2 := str_overwrite nc1 (pack_segment data_segment_header) (ohe + 32)
      let original_nsegments := read_u16 nc2 0x2c
      if original_nsegments + 2 < 0x10000 then
        ({ st with ncontent := str_overwrite nc2 (pack_u16 (original_nsegments + 2)) 0x2c },
         none)
      else ({ st with ncontent := nc2 }, some .structError)
    | _, _, _ => (st, some .typeError)

/-- The deduplicating loop of `get_ordered_nodes` (lines 111-118): walk the
sorted addresses, skipping any address equal to the previously kept one. -/
def ordered_nodes_go : Option Nat → List Nat → List Nat
  | _, [] => []
  | prev, a :: rest =>
    if some a = prev then ordered_nodes_go prev rest
    else a :: ordered_nodes_go (some a) rest

/-- `get_ordered_nodes` (lines 110-118): sort the CFG node addresses and drop
consecutive duplicates. -/
def get_ordered_nodes (cfg_node_addrs : List Nat) : List Nat :=
  ordered_nodes_go none (cfg_node_addrs.insertionSort (· ≤ ·))

/-- `bisect.bisect_right` on the sorted, duplicate-free lists the code
applies it to: the number of elements `≤ x` (the insertion point keeping the
list sorted, to the right of any copies of `x`). -/
def bisect_right (l : List Nat) (x : Nat) : Nat :=
  l.countP (fun a => decide (a ≤ x))

/-- Python list indexing `l[i]`, including the negative-index wraparound that
line 229's `index = bisect_right(...) - 1` can produce: `l[-1]` is the last
element, and an out-of-range index raises `IndexError`. -/
def py_get (l : List Nat) (i : Int) : Except PErr Nat :=
  let j : Int := if 0 ≤ i then i else (l.length : Int) + i
  if 0 ≤ j then
    match l.get? j.toNat with
    | some v => .ok v
    | none => .error .indexError
  else .error .indexError

/-- `get_block_containing_inst` (lines 228-234): binary-search the sorted
node starts, fetch that node, and return its start if `inst_addr` is one of
its instruction addresses, else raise `MissingBlock`. -/
def get_block_containing_inst (get_any_node : Nat → Node)
    (ordered_nodes : List Nat) (inst_addr : Nat) : Except PErr Nat :=
  let index : Int := (bisect_right ordered_nodes inst_addr : Int) - 1
  match py_get ordered_nodes index with
  | .error e => .error e
  | .ok a =>
    let node := get_any_node a
    if inst_addr ∈ node.instruction_addrs then .ok node.addr
    else .error .missingBlock

/-- `check_if_movable` (lines 301-316): an instruction is movable iff its
comparable textual form is the same when its bytes are decoded at offsets
`0x0`, `0x07f00000` and `0xfe000000`. -/
def check_if_movable (bytes_to_comparable_str : List Nat → Nat → String)
    (instruction_bytes : List Nat) : Bool :=
  let pos1 := bytes_to_comparable_str instruction_bytes 0x0
  let pos2 := bytes_to_comparable_str instruction_bytes 0x07f00000
  let pos3 := bytes_to_comparable_str instruction_bytes 0xfe000000
  if pos1 = pos2 ∧ pos2 = pos3 then true else false

/-- `maddress_to_baddress` (lines 318-323): delegate to the loader and raise
`InvalidVAddr` when there is no mapping. -/
def maddress_to_baddress (addr_to_offset : Nat → Option Nat) (addr : Nat) :
    Except PErr Nat :=
  match addr_to_offset addr with
  | none => .error .invalidVAddr
  | some baddr => .ok baddr

/-- The `while` loop of `get_memory_translation_list` (lines 339-341): it
starts at `nstart` and steps by `0x1000` until it hits `end_p`; at the
branch where it runs, `start_p < end_p` and both are multiples of `0x1000`
(their low 12 bits are masked off), so it performs exactly
`(end_p - nstart) / 0x1000` iterations, visiting `nstart + 0x1000 * k`. -/
def middle_pages (addr_to_offset : Nat → Option Nat) (nstart count : Nat) :
    Except PErr (List (Nat × Nat)) :=
  (List.range count).mapM (fun k => do
    let b ← maddress_to_baddress addr_to_offset (nstart + 0x1000 * k)
    pure (b, b + 0x1000))

/-- `get_memory_translation_list` (lines 325-343). -/
def get_memory_translation_list (addr_to_offset : Nat → Option Nat)
    (address size : Nat) : Except PErr (List (Nat × Nat)) :=
  let start := address
  let e := address + size - 1
  let start_p := address &&& 0xfffffff000
  let end_p := e &&& 0xfffffff000
  if start_p = end_p then do
    let a ← maddress_to_baddress addr_to_offset start
    let b ← maddress_to_baddress addr_to_offset e
    pure [(a, b + 1)]
  else do
    let first_page_baddress ← maddress_to_baddress addr_to_offset start
    let head := (first_page_baddress, (first_page_baddress &&& 0xfffffff000) + 0x1000)
    let mids ← middle_pages addr_to_offset (start_p + 0x1000)
      ((end_p - (start_p + 0x1000)) / 0x1000)
    let last_b ← maddress_to_baddress addr_to_offset end_p
    let last_e ← maddress_to_baddress addr_to_offset e
    pure (head :: (mids ++ [(last_b, last_e + 1)]))

/-- The write loop of `patch_bin` (lines 347-353), threading `ncontent` and
`ndata_pos` through the translated ranges. -/
def patch_bin_go (new_content : List Nat) :
    List (Nat × Nat) → List Nat → Nat → List Nat × Nat
  | [], nc, pos => (nc, pos)
  | (s, e) :: rest, nc, pos =>
    let ndata := (new_content.drop pos).take (e - s)
    patch_bin_go new_content rest (str_overwrite nc ndata s) (pos + ndata.length)

/-- `patch_bin` (lines 345-353): translate the virtual range, then write the
corresponding slices of `new_content` at each file-offset range.  The second
component is the final `ndata_pos`. -/
def patch_bin (addr_to_offset : Nat → Option Nat) (ncontent : List Nat)
    (address : Nat) (new_content : List Nat) : Except PErr (List Nat × Nat) := do
  let rs ← get_memory_translation_list addr_to_offset address new_content.length
  pure (patch_bin_go new_content rs ncontent 0)

/-- `read_mem_from_file` (lines 355-360). -/
def read_mem_from_file (addr_to_offset : Nat → Option Nat) (ncontent : List Nat)
    (address size : Nat) : Except PErr (List Nat) := do
  let rs ← get_memory_translation_list addr_to_offset address size
  pure (rs.foldl (fun mem r => mem ++ ((ncontent.drop r.1).take (r.2 - r.1))) [])

/-- The inline-replacement body of `compile_patches` for one `InlinePatch`
(lines 286-290): assemble at the instruction's address against the symbol
map, `assert` the encoded length equals the original instruction's size,
then overwrite at the instruction's file offset.  When `addr_to_offset`
returns `None`, `utils.str_overwrite` receives `pos=None` and appends at the
end of the string. -/
def apply_inline (o : Oracle) (name_map : List (String × Nat))
    (ncontent : List Nat) (instruction_addr : Nat) (new_asm : String) :
    Except PErr (List Nat) :=
  let new_code := o.compile_asm new_asm instruction_addr name_map
  if new_code.length = (o.factory_block instruction_addr (some 1)).size then
    match o.addr_to_offset instruction_addr with
    | some file_offset => .ok (str_overwrite ncontent new_code file_offset)
    | none => .ok (str_append ncontent new_code)
  else .error .assertionError

/-- Phase 3 of `compile_patches` (lines 285-290): fold `apply_inline` over
the registered `InlinePatch`es; an `AssertionError` aborts the compile with
the mutations made so far kept (Python does not roll back). -/
def phase3_inline (o : Oracle) : PatcherSt → List Patch → PatcherSt × Option PErr
  | st, [] => (st, none)
  | st, .inline instruction_addr new_asm _ :: rest =>
    match apply_inline o st.name_map st.ncontent instruction_addr new_asm with
    | .ok nc => phase3_inline o { st with ncontent := nc } rest
    | .error e => (st, some e)
  | st, _ :: rest => phase3_inline o st rest

/-- A Python value at line 394: an `int`, or the angr `Block` object that
line 385 binds to `movable_bb_size` (the `.size` projection present at line
288 is missing there). -/
inductive PyVal where
  | ofInt : Int → PyVal
  | ofBlock : Block → PyVal

/-- Python 2 addition as invoked at line 394: `int + int` adds, while
`int + Block` raises a `TypeError` (angr's `Block` defines no `__radd__`). -/
def pyAdd : PyVal → PyVal → Except PErr Int
  | .ofInt a, .ofInt b => .ok (a + b)
  | _, _ => .error .typeError

/-- `detour_size = 5` (line 368). -/
def detour_size : Nat := 5

/-- `detour_attempts = range(-5, 1)` (line 369). -/
def detour_attempts : List Int := [-5, -4, -3, -2, -1, 0]

/-- The slot-search loop of `insert_detour` (lines 390-399).  Python's `and`
short-circuits, so the faulty addition on the right-hand side of the
comparison is only evaluated once `detour_start >= movable_bb_start`. -/
def find_detour_go (patch_addr movable_bb_start : Nat) (movable_bb_size : PyVal) :
    List Int → Except PErr Int
  | [] => .error (.detour "No space in bb")
  | pos :: rest =>
    let detour_start : Int := (patch_addr : Int) + pos
    let detour_end : Int := detour_start + (detour_size : Int) - 1
    if (movable_bb_start : Int) ≤ detour_start then
      match pyAdd (.ofInt (movable_bb_start : Int)) movable_bb_size with
      | .error e => .error e
      | .ok s =>
        if detour_end < s then .ok detour_start
        else find_detour_go patch_addr movable_bb_start movable_bb_size rest
    else find_detour_go patch_addr movable_bb_start movable_bb_size rest

/-- Lines 389-401: try each offset in `detour_attempts` and raise
`DetourException("No space in bb", ...)` when none fits. -/
def find_detour_pos (patch_addr movable_bb_start : Nat) (movable_bb_size : PyVal) :
    Except PErr Int :=
  find_detour_go patch_addr movable_bb_start movable_bb_size detour_attempts

/-- Lines 402-414: tag every movable instruction by whether its byte range
meets the 5 overwritten bytes, and on which side of the patched address it
starts.  `range(a, b)` sets intersect exactly when the intervals overlap. -/
def classify_instructions (patch_addr : Nat) (detour_pos : Int)
    (mov : List Insn) : List Insn :=
  mov.map (fun i =>
    if detour_pos < (i.address : Int) + i.bytes.length ∧
        (i.address : Int) < detour_pos + detour_size then
      if i.address < patch_addr then { i with overwritten := "pre" }
      else if i.address = patch_addr then { i with overwritten := "culprit" }
      else { i with overwritten := "post" }
    else { i with overwritten := "out" })

/-- Lines 447-452: walking the movable instructions in reverse, the jump-back
target is the address one past the last byte of the first non-`out`
instruction found (i.e. of the highest-addressed one, the list being in
address order); `None` (an `AssertionError` in the source) if all are `out`. -/
def jmp_back_target (mov : List Insn) : Option Nat :=
  (mov.reverse.find? (fun i => i.overwritten != "out")).map
    (fun i => i.address + i.bytes.length)

/-- Python's `hex(int(n))` for the nonnegative values fed to it at line 453. -/
def hex_str (n : Nat) : String :=
  "0x" ++ ⟨Nat.toDigits 16 n⟩

/-- `"\n".join(xs)` splits back into `xs` itself, except that joining the
empty list yields the empty string, i.e. one empty token. -/
def join_tokens (xs : List String) : List String :=
  if xs = [] then [""] else xs

/-- The injected-code text built at lines 432-453, represented by its list of
newline-separated tokens (every chunk the Python code concatenates is either
newline-terminated or immediately followed by a lone `"\n"` append, so the
token lists of the chunks concatenate).  Empty tokens are the blank lines
that line 455 strips; `none` models the `assert jmp_back_target is not None`
failure. -/
def injected_code_tokens (cap : Insn → String) (code : String)
    (mov : List Insn) : Option (List String) :=
  (jmp_back_target mov).map (fun tgt =>
    ["", "nop", "nop", "nop", "nop", "nop", ""] ++
    join_tokens ((mov.filter (fun i => i.overwritten == "pre")).map cap) ++ [""] ++
    ["; --- custom code start"] ++ code.splitOn "\n" ++ ["; --- custom code end", ""] ++
    join_tokens ((mov.filter (fun i => i.overwritten == "culprit")).map cap) ++ [""] ++
    join_tokens ((mov.filter (fun i => i.overwritten == "post")).map cap) ++ [""] ++
    ["jmp " ++ hex_str tgt, ""])

/-- Line 455: drop every blank line from the injected code. -/
def injected_code_lines (cap : Insn → String) (code : String)
    (mov : List Insn) : Option (List String) :=
  (injected_code_tokens cap code mov).map (List.filter (fun line => line != ""))

/-- Lines 419-421: overwrite each non-`out` instruction with one-byte NOPs of
equal length; on an `InvalidVAddr` the writes already made are kept. -/
def nop_out (addr_to_offset : Nat → Option Nat) :
    List Insn → List Nat → List Nat × Option PErr
  | [], nc => (nc, none)
  | i :: rest, nc =>
    if i.overwritten != "out" then
      match patch_bin addr_to_offset nc i.address (List.replicate i.bytes.length 0x90) with
      | .error e => (nc, some e)
      | .ok (nc1, _) => nop_out addr_to_offset rest nc1
    else nop_out addr_to_offset rest nc

/-- The tail of `insert_detour` (lines 402-460), from a successfully chosen
`detour_pos` on: classify, NOP-out, write the 5-byte jump, re-read the block
(the source decodes it only for a debug log, but the read itself can raise),
build the relocation stub, assemble it at `curr_code_position` (line 458
passes no symbol map) and append it to `added_code`. -/
def insert_detour_after_slot (o : Oracle) (st : PatcherSt) (patch_addr : Nat)
    (code : String) (block : Block) (block_addr : Nat)
    (movable_instructions : List Insn) (detour_pos : Int) :
    PatcherSt × Option PErr :=
  let mov := classify_instructions patch_addr detour_pos movable_instructions
  if mov.all (fun i => i.overwritten == "out") then (st, some .assertionError)
  else
    match nop_out o.addr_to_offset mov st.ncontent with
    | (nc1, some e) => ({ st with ncontent := nc1 }, some e)
    | (nc1, none) =>
      let detour_jmp_code := o.compile_jmp detour_pos.toNat st.curr_code_position
      match patch_bin o.addr_to_offset nc1 detour_pos.toNat detour_jmp_code with
      | .error e => ({ st with ncontent := nc1 }, some e)
      | .ok (nc2, _) =>
        match read_mem_from_file o.addr_to_offset nc2 block_addr block.size with
        | .error e => ({ st with ncontent := nc2 }, some e)
        | .ok _ =>
          match injected_code_lines o.capstone_to_nasm code mov with
          | none => ({ st with ncontent := nc2 }, some .assertionError)
          | some lines =>
            let injected_code := String.intercalate "\n" lines
            let new_code := o.compile_asm injected_code st.curr_code_position []
            ({ st with
               ncontent := nc2,
               added_code := st.added_code ++ new_code,
               curr_code_position := st.curr_code_position + new_code.length },
             none)

/-- `insert_detour` (lines 362-460).  `instructions[-1]` on an empty block
raises `IndexError`; an empty movable window raises
`DetourException("No movable instructions found")`.  Line 385 binds
`movable_bb_size` to the `Block` object itself (`.size` is missing), which
`find_detour_pos` then adds to an `int`. -/
def insert_detour (o : Oracle) (st : PatcherSt) (patch_addr : Nat)
    (code : String) : PatcherSt × Option PErr :=
  match get_block_containing_inst o.get_any_node st.ordered_nodes patch_addr with
  | .error e => (st, some e)
  | .ok block_addr =>
    let block := o.factory_block block_addr none
    let original_bbcode := block.bytes
    let instructions := o.decompile original_bbcode block_addr
    match instructions.getLast? with
    | none => (st, some .indexError)
    | some last_insn =>
      let movable_instructions :=
        if check_if_movable o.bytes_to_comparable_str last_insn.bytes then instructions
        else instructions.dropLast
      match movable_instructions.head? with
      | none => (st, some (.detour "No movable instructions found"))
      | some first_insn =>
        let movable_bb_start := first_insn.address
        let movable_bb_size : PyVal :=
          .ofBlock (o.factory_block block_addr (some movable_instructions.length))
        match find_detour_pos patch_addr movable_bb_start movable_bb_size with
        | .error e => (st, some e)
        | .ok detour_pos =>
          insert_detour_after_slot o st patch_addr code block block_addr
            movable_instructions detour_pos

/-- Phase 4 of `compile_patches` (lines 297-299): run `insert_detour` for
each `InsertCodePatch`, aborting on the first raise. -/
def phase4_insert (o : Oracle) : PatcherSt → List Patch → PatcherSt × Option PErr
  | st, [] => (st, none)
  | st, .insertCode addr code _ :: rest =>
    match insert_detour o st addr code with
    | (st1, some e) => (st1, some e)
    | (st1, none) => phase4_insert o st1 rest
  | st, _ :: rest => phase4_insert o st rest

/-- The `AddDataPatch` body of phase 1 (lines 252-258): extend the data
region, bind the optional name at the pre-advance data cursor, advance both
cursors and append the raw bytes at end-of-file. -/
def add_data_step (st : PatcherSt) (p : Patch) : PatcherSt :=
  match p with
  | .addData data name =>
    { st with
      added_data := st.added_data ++ data,
      name_map :=
        match name with
        | some n => (n, st.curr_data_position) :: st.name_map
        | none => st.name_map,
      curr_data_position := st.curr_data_position + data.length,
      curr_file_position := st.curr_file_position + data.length,
      ncontent := str_append st.ncontent data }
  | _ => st

/-- The `AddCodePatch` body of the symbol-resolution pass (lines 268-273):
a fake-symbol assembly gives the encoded length, the optional name is bound
at the running position, which then advances. -/
def resolve_code_step (o : Oracle) (acc : List (String × Nat) × Nat)
    (p : Patch) : List (String × Nat) × Nat :=
  match p with
  | .addCode asm_code name =>
    let code_len := (o.compile_asm_fake_symbol asm_code acc.2).length
    (match name with
     | some n => (n, acc.2) :: acc.1
     | none => acc.1,
     acc.2 + code_len)
  | _ => acc

/-- The `AddCodePatch` body of the real compilation pass (lines 276-281):
assemble against the complete name map, extend `added_code` and both
cursors.  The result of `utils.str_overwrite(self.ncontent, new_code)` at
line 281 is discarded (the assignment present at line 258 is missing), so
`ncontent` is left unchanged. -/
def add_code_step (o : Oracle) (st : PatcherSt) (p : Patch) : PatcherSt :=
  match p with
  | .addCode asm_code _ =>
    let new_code := o.compile_asm asm_code st.curr_code_position st.name_map
    { st with
      added_code := st.added_code ++ new_code,
      curr_code_position := st.curr_code_position + new_code.length,
      curr_file_position := st.curr_file_position + new_code.length }
  | _ => st

/-- Lines 239-244 of `compile_patches`: reset the symbol map, the added
regions and the three cursors. -/
def reset_positions (st0 : PatcherSt) : PatcherSt :=
  { st0 with
    name_map := [], added_data := [], added_code := [],
    curr_code_position := added_code_segment,
    curr_data_position := added_data_segment,
    curr_file_position := round_up_to_page (st0.ncontent.length + 2 * 32) }

/-- Lines 245-248: record `added_data_file_start` and extend the file with
NUL bytes to the current file position. -/
def extend_file (st : PatcherSt) : PatcherSt :=
  { st with
    added_data_file_start := some st.curr_file_position,
    ncontent := ljust st.ncontent st.curr_file_position }

/-- Lines 251-258 (phase 1): fold `add_data_step` over the registry. -/
def phase1_data (st : PatcherSt) : PatcherSt :=
  st.patches.foldl add_data_step st

/-- Lines 261-264: pad the file to the next page, reset the file cursor to
its length and record `added_code_file_start` there. -/
def pad_and_mark (st : PatcherSt) : PatcherSt :=
  let padded := pad_str st.ncontent 0x1000
  { st with
    ncontent := padded,
    curr_file_position := padded.length,
    added_code_file_start := some padded.length }

/-- Lines 266-273 (phase 2, pass 1): bind every `AddCodePatch` name at the
address its code will occupy, using fake-symbol assembly for lengths. -/
def phase2_resolve (o : Oracle) (st : PatcherSt) : PatcherSt :=
  { st with
    name_map :=
      (st.patches.foldl (resolve_code_step o) (st.name_map, st.curr_code_position)).1 }

/-- Lines 275-281 (phase 2, pass 2): fold `add_code_step` over the registry;
`ncontent` is untouched because line 281 discards the write. -/
def phase2_compile (o : Oracle) (st : PatcherSt) : PatcherSt :=
  st.patches.foldl (add_code_step o) st

/-- Lines 239-281 of `compile_patches`: the layout prefix, phases 0-2. -/
def compile_layout (o : Oracle) (st0 : PatcherSt) : PatcherSt :=
  phase2_compile o (phase2_resolve o (pad_and_mark (phase1_data (extend_file (reset_positions st0)))))

/-- `compile_patches` (lines 236-299): the layout prefix above, then the
inline replacements (phase 3), then `set_added_segment_headers`, and finally
the detour insertions (phase 4). -/
def compile_patches (o : Oracle) (st0 : PatcherSt) : PatcherSt × Option PErr :=
  let stG := compile_layout o st0
  match phase3_inline o stG stG.patches with
  | (stH, some e) => (stH, some e)
  | (stH, none) =>
    match set_added_segment_headers stH with
    | (stI, some e) => (stI, some e)
    | (stI, none) => phase4_insert o stI stI.patches

/-- `save` (lines 462-469): the output image is the current `ncontent`
(written to disk with mode `0755`). -/
def save (st : PatcherSt) : List Nat :=
  st.ncontent

/-- Discriminator for `InlinePatch`. -/
def Patch.isInline : Patch → Bool
  | .inline .. => true
  | _ => false

/-- Discriminator for `InsertCodePatch`. -/
def Patch.isInsert : Patch → Bool
  | .insertCode .. => true
  | _ => false

/-! Concrete instantiations used by the witnesses: a one-byte assembler, a
single two-instruction NOP block at `0x100`, and an identity loader map. -/

/-- A concrete oracle for witnesses: every assembly is the single byte
`0x90`, the CFG has one block of two one-byte instructions at `0x100`, the
textual form of any instruction is `"nop"` at every base, and virtual
addresses map to identical file offsets. -/
def toyOracle : Oracle where
  compile_asm := fun _ _ _ => [0x90]
  compile_asm_fake_symbol := fun _ _ => [0x90]
  compile_jmp := fun _ _ => [0xe9, 0, 0, 0, 0]
  decompile := fun bs addr => (List.range bs.length).map (fun k => ⟨addr + k, [0x90], ""⟩)
  bytes_to_comparable_str := fun _ _ => "nop"
  capstone_to_nasm := fun _ => "nop"
  factory_block := fun _ n =>
    match n with
    | none => ⟨[0x90, 0x90], 2⟩
    | some k => ⟨List.replicate k 0x90, k⟩
  addr_to_offset := fun a => some a
  get_any_node := fun _ => ⟨0x100, [0x100, 0x101]⟩

/-- A minimal post-`setup_headers` image: `0x34` NUL bytes followed by the
patched tag (length `0x3f`). -/
def toy_base_content : List Nat :=
  List.replicate 0x34 0 ++ patched_tag

/-- A post-setup patcher state holding one `AddCodePatch`. -/
def toySt1 : PatcherSt where
  ocontent := toy_base_content
  ncontent := toy_base_content
  original_header_end := some 0x3f
  patches := [.addCode "nop" none]
  name_map := []
  added_code := []
  added_data := []
  curr_code_position := added_code_segment
  curr_data_position := added_data_segment
  curr_file_position := 0
  added_code_file_start := none
  added_data_file_start := none
  ordered_nodes := []

/-- A bare patcher state whose CFG has the single block at `0x100`. -/
def toySt2 : PatcherSt where
  ocontent := []
  ncontent := []
  original_header_end := none
  patches := []
  name_map := []
  added_code := []
  added_data := []
  curr_code_position := 0
  curr_data_position := 0
  curr_file_position := 0
  added_code_file_start := none
  added_data_file_start := none
  ordered_nodes := [0x100]

/-- A post-setup patcher state holding one `AddCodePatch` and one
`InsertCodePatch` aimed at the block at `0x100`. -/
def toySt3 : PatcherSt where
  ocontent := toy_base_content
  ncontent := toy_base_content
  original_header_end := some 0x3f
  patches := [.addCode "nop" none, .insertCode 0x100 "inc ebx" none]
  name_map := []
  added_code := []
  added_data := []
  curr_code_position := added_code_segment
  curr_data_position := added_data_segment
  curr_file_position := 0
  added_code_file_start := none
  added_data_file_start := none
  ordered_nodes := [0x100]

/-! Helper lemmas about byte-string slices. -/

theorem str_overwrite_length (t new : List Nat) (pos : Nat)
    (h : pos + new.length ≤ t.length) :
    (str_overwrite t new pos).length = t.length := by
  simp only [str_overwrite, List.length_append, List.length_take, List.length_drop]
  omega

theorem slice_str_overwrite_self (t new : List Nat) (pos : Nat)
    (h : pos ≤ t.length) :
    ((str_overwrite t new pos).drop pos).take new.length = new := by
  have hlen : (t.take pos).length = pos := List.length_take_of_le h
  rw [str_overwrite, List.append_assoc]
  calc ((t.take pos ++ (new ++ t.drop (pos + new.length))).drop pos).take new.length
      = ((t.take pos ++ (new ++ t.drop (pos + new.length))).drop (t.take pos).length).take new.length := by
        rw [hlen]
    _ = (new ++ t.drop (pos + new.length)).take new.length := by
        rw [List.drop_left]
    _ = new := List.take_left new _

theorem slice_str_overwrite_below (t new : List Nat) (pos a k : Nat)
    (h1 : pos ≤ t.length) (h2 : a + k ≤ pos) :
    ((str_overwrite t new pos).drop a).take k = (t.drop a).take k := by
  have hlen : (t.take pos).length = pos := List.length_take_of_le h1
  rw [str_overwrite, List.append_assoc, List.drop_append_eq_append_drop,
    List.take_append_of_le_length (by rw [List.length_drop, hlen]; omega),
    List.drop_take, List.take_take]
  congr 1
  omega

theorem slice_str_overwrite_above (t new : List Nat) (pos a k : Nat)
    (h1 : pos ≤ t.length) (h2 : pos + new.length ≤ a) :
    ((str_overwrite t new pos).drop a).take k = (t.drop a).take k := by
  have hlen : (t.take pos ++ new).length = pos + new.length := by
    rw [List.length_append, List.length_take_of_le h1]
  have ha : a = (t.take pos ++ new).length + (a - (pos + new.length)) := by omega
  rw [str_overwrite, List.append_assoc]
  rw [← List.append_assoc, ha, List.drop_append, List.drop_drop]
  congr 2
  omega

theorem slice_str_append (l z : List Nat) (a k : Nat) (h : a + k ≤ l.length) :
    ((str_append l z).drop a).take k = (l.drop a).take k := by
  rw [str_append, List.drop_append_eq_append_drop,
    List.take_append_of_le_length (by rw [List.length_drop]; omega)]

theorem read_u16_eq_slice (s : List Nat) (pos : Nat) :
    read_u16 s pos = read_u16 ((s.drop pos).take 2) 0 := by
  simp only [read_u16, List.getD_eq_getElem?_getD, List.getElem?_take, List.getElem?_drop]
  norm_num

theorem read_u16_congr (s t : List Nat) (p q : Nat)
    (h : (s.drop p).take 2 = (t.drop q).take 2) :
    read_u16 s p = read_u16 t q := by
  rw [read_u16_eq_slice, h, ← read_u16_eq_slice]

theorem read_u16_pack (v : Nat) (h : v < 0x10000) :
    read_u16 (pack_u16 v) 0 = v := by
  simp only [pack_u16, read_u16, List.getD_eq_getElem?_getD]
  simp only [List.getElem?_cons_zero, List.getElem?_cons_succ, Option.getD_some]
  omega

theorem slice_length_ge (s : List Nat) (a k : Nat)
    (h : (s.drop a).take k = patched_tag) : a + patched_tag.length ≤ s.length := by
  have := congrArg List.length h
  simp only [List.length_take, List.length_drop] at this
  simp only [patched_tag, List.length_cons, List.length_nil] at this ⊢
  omega

theorem ljust_length (s : List Nat) (n : Nat) :
    (ljust s n).length = max n s.length := by
  simp only [ljust, List.length_append, List.length_replicate]
  omega

theorem pad_str_length_ge (s : List Nat) (a : Nat) :
    s.length ≤ (pad_str s a).length := by
  simp [pad_str]

theorem round_up_to_page_ge (n : Nat) : n ≤ round_up_to_page n := by
  simp only [round_up_to_page]
  omega

/-! Frame lemmas for the `compile_patches` folds. -/

theorem add_data_step_fields (st : PatcherSt) (p : Patch) :
    ∃ d,
      (add_data_step st p).ncontent = st.ncontent ++ d ∧
      (add_data_step st p).patches = st.patches ∧
      (add_data_step st p).original_header_end = st.original_header_end ∧
      (add_data_step st p).added_code = st.added_code ∧
      (add_data_step st p).added_code_file_start = st.added_code_file_start ∧
      (add_data_step st p).added_data_file_start = st.added_data_file_start ∧
      (add_data_step st p).ordered_nodes = st.ordered_nodes ∧
      (add_data_step st p).curr_code_position = st.curr_code_position ∧
      (add_data_step st p).ocontent = st.ocontent := by
  cases p with
  | addData data name => exact ⟨data, by simp [add_data_step, str_append]⟩
  | inline a s n => exact ⟨[], by simp [add_data_step]⟩
  | addCode a n => exact ⟨[], by simp [add_data_step]⟩
  | insertCode a c n => exact ⟨[], by simp [add_data_step]⟩

theorem add_data_fold (ps : List Patch) (st : PatcherSt) :
    ∃ suf,
      (ps.foldl add_data_step st).ncontent = st.ncontent ++ suf ∧
      (ps.foldl add_data_step st).patches = st.patches ∧
      (ps.foldl add_data_step st).original_header_end = st.original_header_end ∧
      (ps.foldl add_data_step st).added_code = st.added_code ∧
      (ps.foldl add_data_step st).added_code_file_start = st.added_code_file_start ∧
      (ps.foldl add_data_step st).added_data_file_start = st.added_data_file_start ∧
      (ps.foldl add_data_step st).ordered_nodes = st.ordered_nodes ∧
      (ps.foldl add_data_step st).curr_code_position = st.curr_code_position ∧
      (ps.foldl add_data_step st).ocontent = st.ocontent := by
  induction ps generalizing st with
  | nil => exact ⟨[], by simp⟩
  | cons p rest ih =>
    rw [List.foldl_cons]
    obtain ⟨suf, h1, h2, h3, h4, h5, h6, h7, h8, h9⟩ := ih (add_data_step st p)
    obtain ⟨d, g1, g2, g3, g4, g5, g6, g7, g8, g9⟩ := add_data_step_fields st p
    exact ⟨d ++ suf, by rw [h1, g1, List.append_assoc], h2.trans g2, h3.trans g3,
      h4.trans g4, h5.trans g5, h6.trans g6, h7.trans g7, h8.trans g8, h9.trans g9⟩

theorem add_code_fold (o : Oracle) (ps : List Patch) (st : PatcherSt) :
    (ps.foldl (add_code_step o) st).ncontent = st.ncontent ∧
    (ps.foldl (add_code_step o) st).patches = st.patches ∧
    (ps.foldl (add_code_step o) st).original_header_end = st.original_header_end ∧
    (ps.foldl (add_code_step o) st).added_code_file_start = st.added_code_file_start ∧
    (ps.foldl (add_code_step o) st).added_data_file_start = st.added_data_file_start ∧
    (ps.foldl (add_code_step o) st).ordered_nodes = st.ordered_nodes ∧
    (ps.foldl (add_code_step o) st).added_data = st.added_data ∧
    (ps.foldl (add_code_step o) st).ocontent = st.ocontent := by
  induction ps generalizing st with
  | nil => simp
  | cons p rest ih =>
    rw [List.foldl_cons]
    obtain ⟨h1, h2, h3, h4, h5, h6, h7, h8⟩ := ih (add_code_step o st p)
    cases p <;>
      simpa [add_code_step] using ⟨h1, h2, h3, h4, h5, h6, h7, h8⟩

theorem phase3_no_inline (o : Oracle) (ps : List Patch) (st : PatcherSt)
    (h : ∀ p ∈ ps, ¬ p.isInline = true) :
    phase3_inline o st ps = (st, none) := by
  induction ps generalizing st with
  | nil => rfl
  | cons p rest ih =>
    cases p with
    | inline a s n =>
      have hc := h (.inline a s n) (by simp)
      simp [Patch.isInline] at hc
    | addData d n => exact ih st (fun q hq => h q (by simp [hq]))
    | addCode a n => exact ih st (fun q hq => h q (by simp [hq]))
    | insertCode a c n => exact ih st (fun q hq => h q (by simp [hq]))

theorem phase4_no_insert (o : Oracle) (ps : List Patch) (st : PatcherSt)
    (h : ∀ p ∈ ps, ¬ p.isInsert = true) :
    phase4_insert o st ps = (st, none) := by
  induction ps generalizing st with
  | nil => rfl
  | cons p rest ih =>
    cases p with
    | insertCode a c n =>
      have hc := h (.insertCode a c n) (by simp)
      simp [Patch.isInsert] at hc
    | addData d n => exact ih st (fun q hq => h q (by simp [hq]))
    | addCode a n => exact ih st (fun q hq => h q (by simp [hq]))
    | inline a s n => exact ih st (fun q hq => h q (by simp [hq]))

theorem phase4_skip_front (o : Oracle) (ps rest : List Patch) (st : PatcherSt)
    (h : ∀ p ∈ ps, ¬ p.isInsert = true) :
    phase4_insert o st (ps ++ rest) = phase4_insert o st rest := by
  induction ps generalizing st with
  | nil => rfl
  | cons p t ih =>
    cases p with
    | insertCode a c n =>
      have hc := h (.insertCode a c n) (by simp)
      simp [Patch.isInsert] at hc
    | addData d n => exact ih st (fun q hq => h q (by simp [hq]))
    | addCode a n => exact ih st (fun q hq => h q (by simp [hq]))
    | inline a s n => exact ih st (fun q hq => h q (by simp [hq]))

theorem set_headers_spec (st : PatcherSt) (adfs acfs ohe : Nat)
    (hd : st.added_data_file_start = some adfs)
    (hc : st.added_code_file_start = some acfs)
    (ho : st.original_header_end = some ohe)
    (htag : (st.ncontent.drop 0x34).take patched_tag.length = patched_tag)
    (hlo : 0x2e ≤ ohe)
    (hbound : ohe + 64 ≤ st.ncontent.length)
    (hcnt : read_u16 st.ncontent 0x2c + 2 < 0x10000) :
    ∃ nc,
      set_added_segment_headers st = ({ st with ncontent := nc }, none) ∧
      nc.length = st.ncontent.length ∧
      (nc.drop ohe).take 32 =
        pack_segment ⟨1, acfs, added_code_segment, 0, st.added_code.length,
          st.added_code.length, 0x5, 0x0⟩ ∧
      ((nc.drop (ohe + 32)).take 32 =
        pack_segment ⟨1, adfs, added_data_segment, 0, st.added_data.length,
          st.added_data.length, 0x6, 0x0⟩) ∧
      read_u16 nc 0x2c = read_u16 st.ncontent 0x2c + 2 := by
  have hchdr : (pack_segment ⟨1, acfs, added_code_segment, 0, st.added_code.length,
      st.added_code.length, 0x5, 0x0⟩).length = 32 := by
    simp [pack_segment, pack_u32]
  have hdhdr : (pack_segment ⟨1, adfs, added_data_segment, 0, st.added_data.length,
      st.added_data.length, 0x6, 0x0⟩).length = 32 := by
    simp [pack_segment, pack_u32]
  set chdr := pack_segment ⟨1, acfs, added_code_segment, 0, st.added_code.length,
      st.added_code.length, 0x5, 0x0⟩ with hchdr_def
  set dhdr := pack_segment ⟨1, adfs, added_data_segment, 0, st.added_data.length,
      st.added_data.length, 0x6, 0x0⟩ with hdhdr_def
  set nc1 := str_overwrite st.ncontent chdr ohe with hnc1
  set nc2 := str_overwrite nc1 dhdr (ohe + 32) with hnc2
  have hlen1 : nc1.length = st.ncontent.length :=
    str_overwrite_length _ _ _ (by omega)
  have hlen2 : nc2.length = nc1.length :=
    str_overwrite_length _ _ _ (by rw [hlen1]; omega)
  have hslice2c : (nc2.drop 0x2c).take 2 = (st.ncontent.drop 0x2c).take 2 := by
    rw [hnc2, slice_str_overwrite_below _ _ _ _ _ (by omega) (by omega),
      hnc1, slice_str_overwrite_below _ _ _ _ _ (by omega) (by omega)]
  have hcnt2 : read_u16 nc2 0x2c = read_u16 st.ncontent 0x2c :=
    read_u16_congr _ _ _ _ hslice2c
  refine ⟨str_overwrite nc2 (pack_u16 (read_u16 nc2 0x2c + 2)) 0x2c, ?_, ?_, ?_, ?_, ?_⟩
  · rw [set_added_segment_headers]
    rw [if_neg (by simp [htag]), hd, hc, ho]
    dsimp only
    rw [if_pos (show read_u16 nc2 0x2c + 2 < 0x10000 by rw [hcnt2]; omega)]
  · rw [str_overwrite_length _ _ _ (by simp [pack_u16]; omega), hlen2, hlen1]
  · rw [slice_str_overwrite_above _ _ _ _ _ (by rw [hlen2, hlen1]; omega)
      (by simp [pack_u16]; omega)]
    rw [← hchdr]
    rw [hnc2, slice_str_overwrite_below _ _ _ _ _ (by rw [hlen1]; omega)
      (by simp [hchdr])]
    rw [hnc1]
    exact slice_str_overwrite_self st.ncontent chdr ohe (by omega)
  · rw [slice_str_overwrite_above _ _ _ _ _ (by rw [hlen2, hlen1]; omega)
      (by simp [pack_u16]; omega)]
    rw [← hdhdr]
    rw [hnc2]
    exact slice_str_overwrite_self nc1 dhdr (ohe + 32) (by rw [hlen1]; omega)
  · have hself := slice_str_overwrite_self nc2 (pack_u16 (read_u16 nc2 0x2c + 2)) 0x2c
      (by rw [hlen2, hlen1]; omega)
    have hplen : (pack_u16 (read_u16 nc2 0x2c + 2)).length = 2 := by simp [pack_u16]
    rw [hplen] at hself
    rw [read_u16_eq_slice, hself, read_u16_pack _ (by rw [hcnt2]; omega), hcnt2]

theorem compile_layout_fields (o : Oracle) (st0 : PatcherSt) :
    (compile_layout o st0).patches = st0.patches ∧
    (compile_layout o st0).original_header_end = st0.original_header_end ∧
    (compile_layout o st0).ordered_nodes = st0.ordered_nodes ∧
    (compile_layout o st0).added_code_file_start =
      some (compile_layout o st0).ncontent.length ∧
    (∃ adfs, (compile_layout o st0).added_data_file_start = some adfs) ∧
    st0.ncontent.length + 64 ≤ (compile_layout o st0).ncontent.length ∧
    (∀ a k, a + k ≤ st0.ncontent.length →
      ((compile_layout o st0).ncontent.drop a).take k =
        (st0.ncontent.drop a).take k) := by
  set s1 := reset_positions st0 with hs1
  set s2 := extend_file s1 with hs2
  set s3 := phase1_data s2 with hs3
  set s4 := pad_and_mark s3 with hs4
  set s5 := phase2_resolve o s4 with hs5
  have hpre : compile_layout o st0 = s5.patches.foldl (add_code_step o) s5 := rfl
  obtain ⟨c1, c2, c3, c4, c5, c6, c7, c8⟩ := add_code_fold o s5.patches s5
  have hs3eq : s3 = s2.patches.foldl add_data_step s2 := rfl
  obtain ⟨suf, d1, d2, d3, d4, d5, d6, d7, d8, d9⟩ := add_data_fold s2.patches s2
  rw [← hs3eq] at d1 d2 d3 d4 d5 d6 d7 d8 d9
  have e5p : s5.patches = s4.patches := by rw [hs5, phase2_resolve]
  have e5o : s5.original_header_end = s4.original_header_end := by rw [hs5, phase2_resolve]
  have e5n : s5.ncontent = s4.ncontent := by rw [hs5, phase2_resolve]
  have e5c : s5.added_code_file_start = s4.added_code_file_start := by rw [hs5, phase2_resolve]
  have e5d : s5.added_data_file_start = s4.added_data_file_start := by rw [hs5, phase2_resolve]
  have e5r : s5.ordered_nodes = s4.ordered_nodes := by rw [hs5, phase2_resolve]
  have e4p : s4.patches = s3.patches := by rw [hs4, pad_and_mark]
  have e4o : s4.original_header_end = s3.original_header_end := by rw [hs4, pad_and_mark]
  have e4n : s4.ncontent = pad_str s3.ncontent 0x1000 := by rw [hs4, pad_and_mark]
  have e4c : s4.added_code_file_start = some (pad_str s3.ncontent 0x1000).length := by
    rw [hs4, pad_and_mark]
  have e4d : s4.added_data_file_start = s3.added_data_file_start := by rw [hs4, pad_and_mark]
  have e4r : s4.ordered_nodes = s3.ordered_nodes := by rw [hs4, pad_and_mark]
  have e2p : s2.patches = st0.patches := by rw [hs2, extend_file, hs1, reset_positions]
  have e2o : s2.original_header_end = st0.original_header_end := by
    rw [hs2, extend_file, hs1, reset_positions]
  have e2n : s2.ncontent =
      ljust st0.ncontent (round_up_to_page (st0.ncontent.length + 2 * 32)) := by
    rw [hs2, extend_file, hs1, reset_positions]
  have e2d : s2.added_data_file_start =
      some (round_up_to_page (st0.ncontent.length + 2 * 32)) := by
    rw [hs2, extend_file, hs1, reset_positions]
  have e2r : s2.ordered_nodes = st0.ordered_nodes := by
    rw [hs2, extend_file, hs1, reset_positions]
  have hncontent : (compile_layout o st0).ncontent = pad_str s3.ncontent 0x1000 := by
    rw [hpre, c1, e5n, e4n]
  have hs3n : s3.ncontent =
      ljust st0.ncontent (round_up_to_page (st0.ncontent.length + 2 * 32)) ++ suf := by
    rw [d1, e2n]
  refine ⟨?_, ?_, ?_, ?_, ?_, ?_, ?_⟩
  · rw [hpre, c2, e5p, e4p, d2, e2p]
  · rw [hpre, c3, e5o, e4o, d3, e2o]
  · rw [hpre, c6, e5r, e4r, d7, e2r]
  · rw [hpre, c4, e5c, e4c, c1, e5n, e4n]
  · exact ⟨round_up_to_page (st0.ncontent.length + 2 * 32),
      by rw [hpre, c5, e5d, e4d, d6, e2d]⟩
  · rw [hncontent]
    have h1 : st0.ncontent.length + 64 ≤
        (ljust st0.ncontent (round_up_to_page (st0.ncontent.length + 2 * 32))).length := by
      rw [ljust_length]
      have := round_up_to_page_ge (st0.ncontent.length + 2 * 32)
      omega
    have h2 := pad_str_length_ge s3.ncontent 0x1000
    rw [hs3n] at h2 ⊢
    simp only [List.length_append] at h2 ⊢
    omega
  · intro a k hk
    rw [hncontent, pad_str, hs3n, ljust]
    rw [List.append_assoc, List.append_assoc]
    have := slice_str_append st0.ncontent
      (List.replicate (round_up_to_page (st0.ncontent.length + 2 * 32) - st0.ncontent.length) 0 ++
        (suf ++ List.replicate ((0x1000 - (st0.ncontent ++
          (List.replicate (round_up_to_page (st0.ncontent.length + 2 * 32) -
            st0.ncontent.length) 0 ++ suf)).length % 0x1000) % 0x1000) 0)) a k hk
    rw [str_append] at this
    rw [← this]
    congr 1
    simp [List.append_assoc]

/-- C1: the claim is false of the code: after `compile_patches` (here on a
patch set of data and code additions, the compile succeeding) followed by
`save`, the output image contains no added code region at all — the file
ends exactly at `added_code_file_start`, because line 281 discards the
result of `utils.str_overwrite(self.ncontent, new_code)` and the detour
stubs are never written to `ncontent` either.  Whenever `added_code` is
nonempty (e.g. one `AddCodePatch` assembling to one byte), the bytes at
`[added_code_file_start, added_code_file_start + len(added_code))` of the
saved image — an empty slice — cannot equal the assembled pass-2 bytes. -/
theorem c1_added_code_never_written (o : Oracle) (st0 : PatcherSt) (ohe : Nat)
    (hpat : ∀ p ∈ st0.patches, ¬ p.isInline = true ∧ ¬ p.isInsert = true)
    (htag : (st0.ncontent.drop 0x34).take patched_tag.length = patched_tag)
    (ho : st0.original_header_end = some ohe)
    (hlo : 0x2e ≤ ohe) (hhi : ohe ≤ st0.ncontent.length)
    (hcnt : read_u16 st0.ncontent 0x2c + 2 < 0x10000) :
    (compile_patches o st0).2 = none ∧
    ∃ acfs, (compile_patches o st0).1.added_code_file_start = some acfs ∧
      (save (compile_patches o st0).1).length = acfs ∧
      (save (compile_patches o st0).1).drop acfs = [] := by
  set P := compile_layout o st0 with hP
  obtain ⟨p1, p2, p3, p4, ⟨adfs, p5⟩, p6, p7⟩ := compile_layout_fields o st0
  rw [← hP] at p1 p2 p3 p4 p5 p6 p7
  have h34 : 0x34 + patched_tag.length ≤ st0.ncontent.length :=
    slice_length_ge _ _ _ htag
  have htagP : (P.ncontent.drop 0x34).take patched_tag.length = patched_tag := by
    rw [p7 _ _ (by omega)]
    exact htag
  have hcntP : read_u16 P.ncontent 0x2c = read_u16 st0.ncontent 0x2c :=
    read_u16_congr _ _ _ _ (p7 0x2c 2 (by omega))
  obtain ⟨nc, hset, hnclen, hsc, hsd, hcnt'⟩ :=
    set_headers_spec P adfs P.ncontent.length ohe p5 p4 (p2.trans ho) htagP hlo
      (by omega) (by rw [hcntP]; exact hcnt)
  have hphase3 : phase3_inline o P P.patches = (P, none) :=
    phase3_no_inline o P.patches P
      (fun p hp => (hpat p (by rw [← p1]; exact hp)).1)
  have hphase4 : phase4_insert o { P with ncontent := nc }
      ({ P with ncontent := nc } : PatcherSt).patches =
      ({ P with ncontent := nc }, none) :=
    phase4_no_insert o _ _
      (fun p hp => (hpat p (by simpa [← p1] using hp)).2)
  have hcomp : compile_patches o st0 = ({ P with ncontent := nc }, none) := by
    rw [compile_patches, ← hP, hphase3]
    dsimp only
    rw [hset]
    exact hphase4
  refine ⟨by rw [hcomp], P.ncontent.length, ?_, ?_, ?_⟩
  · rw [hcomp]
    exact p4
  · rw [hcomp, save, hnclen]
  · rw [hcomp, save, ← hnclen]
    exact List.drop_length nc

theorem find_detour_pos_block (patch_addr movable_bb_start : Nat) (b : Block)
    (h : movable_bb_start ≤ patch_addr) :
    find_detour_pos patch_addr movable_bb_start (.ofBlock b) = .error .typeError := by
  have hadd : ∀ pos : Int, (movable_bb_start : Int) ≤ (patch_addr : Int) + pos →
      ∀ rest, find_detour_go patch_addr movable_bb_start (.ofBlock b) (pos :: rest) =
        .error .typeError := by
    intro pos hle rest
    rw [find_detour_go, if_pos hle]
    rfl
  have hskip : ∀ pos : Int, ¬ (movable_bb_start : Int) ≤ (patch_addr : Int) + pos →
      ∀ rest, find_detour_go patch_addr movable_bb_start (.ofBlock b) (pos :: rest) =
        find_detour_go patch_addr movable_bb_start (.ofBlock b) rest := by
    intro pos hle rest
    rw [find_detour_go, if_neg hle]
  rw [find_detour_pos, detour_attempts]
  by_cases h5 : (movable_bb_start : Int) ≤ (patch_addr : Int) + (-5)
  · exact hadd _ h5 _
  rw [hskip _ h5]
  by_cases h4 : (movable_bb_start : Int) ≤ (patch_addr : Int) + (-4)
  · exact hadd _ h4 _
  rw [hskip _ h4]
  by_cases h3 : (movable_bb_start : Int) ≤ (patch_addr : Int) + (-3)
  · exact hadd _ h3 _
  rw [hskip _ h3]
  by_cases h2 : (movable_bb_start : Int) ≤ (patch_addr : Int) + (-2)
  · exact hadd _ h2 _
  rw [hskip _ h2]
  by_cases h1 : (movable_bb_start : Int) ≤ (patch_addr : Int) + (-1)
  · exact hadd _ h1 _
  rw [hskip _ h1]
  exact hadd 0 (by omega) _

theorem insert_detour_typeError (o : Oracle) (st : PatcherSt) (paddr : Nat)
    (code : String) (ba : Nat) (last_insn first_insn : Insn)
    (hblk : get_block_containing_inst o.get_any_node st.ordered_nodes paddr = .ok ba)
    (hlast : (o.decompile (o.factory_block ba none).bytes ba).getLast? = some last_insn)
    (hfirst : (if check_if_movable o.bytes_to_comparable_str last_insn.bytes
        then o.decompile (o.factory_block ba none).bytes ba
        else (o.decompile (o.factory_block ba none).bytes ba).dropLast).head? =
      some first_insn)
    (hle : first_insn.address ≤ paddr) :
    insert_detour o st paddr code = (st, some .typeError) := by
  rw [insert_detour, hblk]
  dsimp only
  rw [hlast]
  dsimp only
  rw [hfirst]
  dsimp only
  rw [find_detour_pos_block _ _ _ hle]

/-- C2: the claim is false of the code.  The movable window and the offset
list `{-5,...,0}` are set up as the claim says, but line 385 binds
`movable_bb_size` to the angr `Block` object itself (the `.size` projection
used at line 288 is missing), so the first loop iteration whose left
conjunct holds — and `p = 0` always qualifies, the culprit lying at or after
the window start — evaluates `movable_bb_start + movable_bb_size` as
`int + Block` and raises a `TypeError` instead of selecting a trampoline
start or raising `Detour("No space in bb")`. -/
theorem c2_detour_slot_search_raises (o : Oracle) (st : PatcherSt) (paddr : Nat)
    (code : String) (ba : Nat) (last_insn first_insn : Insn)
    (hblk : get_block_containing_inst o.get_any_node st.ordered_nodes paddr = .ok ba)
    (hlast : (o.decompile (o.factory_block ba none).bytes ba).getLast? = some last_insn)
    (hfirst : (if check_if_movable o.bytes_to_comparable_str last_insn.bytes
        then o.decompile (o.factory_block ba none).bytes ba
        else (o.decompile (o.factory_block ba none).bytes ba).dropLast).head? =
      some first_insn)
    (hle : first_insn.address ≤ paddr) :
    insert_detour o st paddr code = (st, some .typeError) :=
  insert_detour_typeError o st paddr code ba last_insn first_insn hblk hlast hfirst hle

/-- Witness for C2: on the toy CFG block of two NOPs at `0x100`, inserting at
`0x100` raises the `TypeError` (and in particular never reaches the
classification, NOP-out or stub construction). -/
theorem c2_detour_slot_search_raises_witness :
    insert_detour toyOracle toySt2 0x100 "inc ebx" = (toySt2, some .typeError) :=
  c2_detour_slot_search_raises toyOracle toySt2 0x100 "inc ebx" 0x100
    ⟨0x101, [0x90], ""⟩ ⟨0x100, [0x90], ""⟩ (by rfl) (by rfl) (by rfl)
    (by decide)

/-- Witness for C1 at the toy instance: one `AddCodePatch` whose pass-2
assembly is the single byte `0x90`.  The compile succeeds and `added_code`
holds that byte, yet the saved image ends exactly at
`added_code_file_start`: the claimed code region is absent. -/
theorem c1_added_code_never_written_witness :
    (compile_patches toyOracle toySt1).1.added_code = [0x90] ∧
    ((compile_patches toyOracle toySt1).2 = none ∧
      ∃ acfs,
        (compile_patches toyOracle toySt1).1.added_code_file_start = some acfs ∧
        (save (compile_patches toyOracle toySt1).1).length = acfs ∧
        (save (compile_patches toyOracle toySt1).1).drop acfs = []) :=
  ⟨by decide,
   c1_added_code_never_written toyOracle toySt1 0x3f (by decide) (by decide)
     (by decide) (by decide) (by decide) (by decide)⟩

/-- C3: the claim is false of the code.  `set_added_segment_headers` is
called at line 292, before the `InsertCodePatch` loop at lines 297-299, so
the two added-segment headers are already in the image while no detour stub
has been processed: here the compile aborts inside `insert_detour` (the
line-385 `TypeError`), yet the saved image carries the 32-byte code-segment
record at `original_header_end` — its filesz/memsz fields equal the length
of the `AddCodePatch` bytes only, detour stubs excluded — and the 16-bit
count at `0x2C` has already been incremented by 2. -/
theorem c3_headers_written_before_detours (o : Oracle) (st0 : PatcherSt)
    (ohe : Nat) (ps qs : List Patch) (a : Nat) (c : String) (nm : Option String)
    (ba : Nat) (last_insn first_insn : Insn)
    (hsplit : st0.patches = ps ++ Patch.insertCode a c nm :: qs)
    (hps : ∀ p ∈ ps, ¬ p.isInsert = true)
    (hnoinline : ∀ p ∈ st0.patches, ¬ p.isInline = true)
    (htag : (st0.ncontent.drop 0x34).take patched_tag.length = patched_tag)
    (ho : st0.original_header_end = some ohe)
    (hlo : 0x2e ≤ ohe) (hhi : ohe ≤ st0.ncontent.length)
    (hcnt : read_u16 st0.ncontent 0x2c + 2 < 0x10000)
    (hblk : get_block_containing_inst o.get_any_node st0.ordered_nodes a = .ok ba)
    (hlast : (o.decompile (o.factory_block ba none).bytes ba).getLast? = some last_insn)
    (hfirst : (if check_if_movable o.bytes_to_comparable_str last_insn.bytes
        then o.decompile (o.factory_block ba none).bytes ba
        else (o.decompile (o.factory_block ba none).bytes ba).dropLast).head? =
      some first_insn)
    (hle : first_insn.address ≤ a) :
    (compile_patches o st0).2 = some .typeError ∧
    ∃ acfs,
      (compile_patches o st0).1.added_code_file_start = some acfs ∧
      ((save (compile_patches o st0).1).drop ohe).take 32 =
        pack_segment ⟨1, acfs, added_code_segment, 0,
          (compile_patches o st0).1.added_code.length,
          (compile_patches o st0).1.added_code.length, 0x5, 0x0⟩ ∧
      read_u16 (save (compile_patches o st0).1) 0x2c =
        read_u16 st0.ncontent 0x2c + 2 := by
  set P := compile_layout o st0 with hP
  obtain ⟨p1, p2, p3, p4, ⟨adfs, p5⟩, p6, p7⟩ := compile_layout_fields o st0
  rw [← hP] at p1 p2 p3 p4 p5 p6 p7
  have h34 : 0x34 + patched_tag.length ≤ st0.ncontent.length :=
    slice_length_ge _ _ _ htag
  have htagP : (P.ncontent.drop 0x34).take patched_tag.length = patched_tag := by
    rw [p7 _ _ (by omega)]
    exact htag
  have hcntP : read_u16 P.ncontent 0x2c = read_u16 st0.ncontent 0x2c :=
    read_u16_congr _ _ _ _ (p7 0x2c 2 (by omega))
  obtain ⟨nc, hset, hnclen, hsc, hsd, hcnt'⟩ :=
    set_headers_spec P adfs P.ncontent.length ohe p5 p4 (p2.trans ho) htagP hlo
      (by omega) (by rw [hcntP]; exact hcnt)
  have hphase3 : phase3_inline o P P.patches = (P, none) :=
    phase3_no_inline o P.patches P
      (fun p hp => hnoinline p (by rw [← p1]; exact hp))
  set stI : PatcherSt := { P with ncontent := nc } with hstI
  have hord : stI.ordered_nodes = st0.ordered_nodes := by
    rw [hstI]
    exact p3
  have hins : insert_detour o stI a c = (stI, some .typeError) := by
    apply insert_detour_typeError o _ a c ba last_insn first_insn _ hlast hfirst hle
    rw [hord]
    exact hblk
  have hpI : stI.patches = ps ++ Patch.insertCode a c nm :: qs := by
    rw [hstI]
    exact p1.trans hsplit
  have hphase4 : phase4_insert o stI stI.patches = (stI, some .typeError) := by
    rw [hpI, phase4_skip_front o ps _ _ hps]
    simp only [phase4_insert]
    rw [hins]
  have hcomp : compile_patches o st0 = (stI, some .typeError) := by
    rw [compile_patches, ← hP, hphase3]
    dsimp only
    rw [hset]
    exact hphase4
  refine ⟨by rw [hcomp], P.ncontent.length, ?_, ?_, ?_⟩
  · rw [hcomp]
    exact p4
  · rw [hcomp, save]
    exact hsc
  · rw [hcomp, save]
    show read_u16 nc 0x2c = _
    rw [hcnt', hcntP]

/-- Witness for C3 at the toy instance: one `AddCodePatch` (one byte) and
one `InsertCodePatch` at `0x100`.  The compile aborts with the `TypeError`,
yet the code-segment header (filesz = memsz = 1, the `AddCodePatch` byte
only) and the incremented count are already in the saved image. -/
theorem c3_headers_written_before_detours_witness :
    (compile_patches toyOracle toySt3).2 = some .typeError ∧
    ∃ acfs,
      (compile_patches toyOracle toySt3).1.added_code_file_start = some acfs ∧
      ((save (compile_patches toyOracle toySt3).1).drop 0x3f).take 32 =
        pack_segment ⟨1, acfs, added_code_segment, 0,
          (compile_patches toyOracle toySt3).1.added_code.length,
          (compile_patches toyOracle toySt3).1.added_code.length, 0x5, 0x0⟩ ∧
      read_u16 (save (compile_patches toyOracle toySt3).1) 0x2c =
        read_u16 toySt3.ncontent 0x2c + 2 :=
  c3_headers_written_before_detours toyOracle toySt3 0x3f
    [Patch.addCode "nop" none] [] 0x100 "inc ebx" none 0x100
    ⟨0x101, [0x90], ""⟩ ⟨0x100, [0x90], ""⟩ (by rfl) (by decide) (by decide)
    (by decide) (by decide) (by decide) (by decide) (by decide) (by rfl)
    (by rfl) (by rfl) (by decide)

theorem find_reverse_max (p : Insn → Bool) (mov : List Insn) (i : Insn)
    (hsort : mov.Pairwise (fun x y => x.address < y.address))
    (hfind : mov.reverse.find? p = some i) :
    i ∈ mov ∧ p i = true ∧ ∀ j ∈ mov, p j = true → j.address ≤ i.address := by
  induction mov using List.reverseRecOn with
  | nil => simp at hfind
  | append_singleton xs x ih =>
    rw [List.reverse_append, List.reverse_singleton, List.singleton_append,
      List.find?] at hfind
    rw [List.pairwise_append] at hsort
    obtain ⟨hxs, -, hlt⟩ := hsort
    cases hpx : p x with
    | true =>
      rw [hpx] at hfind
      injection hfind with hfind
      subst hfind
      refine ⟨by simp, hpx, fun j hj _ => ?_⟩
      rcases (List.mem_append.mp hj) with hj | hj
      · exact le_of_lt (hlt j hj x (by simp))
      · simp only [List.mem_singleton] at hj
        subst hj
        exact le_refl _
    | false =>
      rw [hpx] at hfind
      obtain ⟨hmem, hp, hmax⟩ := ih hxs hfind
      refine ⟨List.mem_append.mpr (Or.inl hmem), hp, fun j hj hpj => ?_⟩
      rcases (List.mem_append.mp hj) with hj | hj
      · exact hmax j hj hpj
      · simp only [List.mem_singleton] at hj
        subst hj
        rw [hpx] at hpj
        exact absurd hpj (by simp)

theorem filter_join_tokens (xs : List String) (h : ∀ x ∈ xs, x ≠ "") :
    (join_tokens xs).filter (fun l => l != "") = xs := by
  rw [join_tokens]
  by_cases hxs : xs = []
  · subst hxs
    simp
  · rw [if_neg hxs]
    apply List.filter_eq_self.mpr
    intro x hx
    simpa using h x hx

/-- C4: for a classified movable window in address order (and nonempty
instruction lines, as capstone produces), the blank-line-stripped stub text
is exactly: five NOPs, the `pre` instructions in original order, the user's
source, the `culprit` instructions, the `post` instructions, and a final
`jmp` to the address one past the last byte of the highest-addressed
non-`out` instruction. -/
theorem c4_stub_layout (cap : Insn → String) (code : String) (mov : List Insn)
    (hi : Insn)
    (hsort : mov.Pairwise (fun x y => x.address < y.address))
    (hlines : ∀ i ∈ mov, cap i ≠ "")
    (hfind : mov.reverse.find? (fun i => i.overwritten != "out") = some hi) :
    injected_code_lines cap code mov =
      some (["nop", "nop", "nop", "nop", "nop"]
        ++ (mov.filter (fun i => i.overwritten == "pre")).map cap
        ++ ["; --- custom code start"]
        ++ (code.splitOn "\n").filter (fun l => l != "")
        ++ ["; --- custom code end"]
        ++ (mov.filter (fun i => i.overwritten == "culprit")).map cap
        ++ (mov.filter (fun i => i.overwritten == "post")).map cap
        ++ ["jmp " ++ hex_str (hi.address + hi.bytes.length)]) ∧
    hi ∈ mov ∧ hi.overwritten ≠ "out" ∧
    ∀ j ∈ mov, j.overwritten ≠ "out" → j.address ≤ hi.address := by
  obtain ⟨hmem, hp, hmax⟩ := find_reverse_max _ mov hi hsort hfind
  have hmap : ∀ tag : String, ∀ x ∈ (mov.filter (fun i => i.overwritten == tag)).map cap,
      x ≠ "" := by
    intro tag x hx
    obtain ⟨i, hi_mem, rfl⟩ := List.mem_map.mp hx
    exact hlines i (List.mem_of_mem_filter hi_mem)
  have htgt : jmp_back_target mov = some (hi.address + hi.bytes.length) := by
    rw [jmp_back_target, hfind, Option.map_some']
  refine ⟨?_, hmem, by simpa using hp, fun j hj hjp => hmax j hj (by simpa using hjp)⟩
  rw [injected_code_lines, injected_code_tokens, htgt, Option.map_some',
    Option.map_some']
  congr 1
  simp only [List.filter_append]
  rw [filter_join_tokens _ (hmap "pre"), filter_join_tokens _ (hmap "culprit"),
    filter_join_tokens _ (hmap "post")]
  have fnop : (["", "nop", "nop", "nop", "nop", "nop", ""] :
      List String).filter (fun l => l != "") = ["nop", "nop", "nop", "nop", "nop"] := by
    decide
  have fblank : ([""] : List String).filter (fun l => l != "") = [] := by decide
  have fstart : (["; --- custom code start"] : List String).filter
      (fun l => l != "") = ["; --- custom code start"] := by decide
  have fend : (["; --- custom code end", ""] : List String).filter
      (fun l => l != "") = ["; --- custom code end"] := by decide
  have hjne : ("jmp " ++ hex_str (hi.address + hi.bytes.length)) ≠ "" := by
    intro h
    have := congrArg String.length h
    simp [String.length_append] at this
    exact absurd this.1 (by decide)
  have fjmp : (["jmp " ++ hex_str (hi.address + hi.bytes.length), ""] :
      List String).filter (fun l => l != "") =
      ["jmp " ++ hex_str (hi.address + hi.bytes.length)] := by
    simp [List.filter_cons, hjne]
  rw [fnop, fblank, fstart, fend, fjmp]
  simp [List.append_assoc]

/-- Witness for C4: a three-instruction window (`pre` at `0x100`, `culprit`
at `0x101` of two bytes, `out` at `0x103`); the jump-back target is
`0x103`. -/
theorem c4_stub_layout_witness :
    injected_code_lines (fun _ => "mov eax, 1") "inc ebx"
        [⟨0x100, [0x90], "pre"⟩, ⟨0x101, [0x90, 0x90], "culprit"⟩,
         ⟨0x103, [0x90], "out"⟩] =
      some (["nop", "nop", "nop", "nop", "nop"]
        ++ ([⟨0x100, [0x90], "pre"⟩, ⟨0x101, [0x90, 0x90], "culprit"⟩,
             ⟨0x103, [0x90], "out"⟩].filter
              (fun i : Insn => i.overwritten == "pre")).map (fun _ => "mov eax, 1")
        ++ ["; --- custom code start"]
        ++ (("inc ebx").splitOn "\n").filter (fun l => l != "")
        ++ ["; --- custom code end"]
        ++ ([⟨0x100, [0x90], "pre"⟩, ⟨0x101, [0x90, 0x90], "culprit"⟩,
             ⟨0x103, [0x90], "out"⟩].filter
              (fun i : Insn => i.overwritten == "culprit")).map (fun _ => "mov eax, 1")
        ++ ([⟨0x100, [0x90], "pre"⟩, ⟨0x101, [0x90, 0x90], "culprit"⟩,
             ⟨0x103, [0x90], "out"⟩].filter
              (fun i : Insn => i.overwritten == "post")).map (fun _ => "mov eax, 1")
        ++ ["jmp " ++ hex_str (0x101 + 2)]) ∧
    (⟨0x101, [0x90, 0x90], "culprit"⟩ : Insn) ∈
      [⟨0x100, [0x90], "pre"⟩, ⟨0x101, [0x90, 0x90], "culprit"⟩,
       ⟨0x103, [0x90], "out"⟩] ∧
    (⟨0x101, [0x90, 0x90], "culprit"⟩ : Insn).overwritten ≠ "out" ∧
    ∀ j ∈ [⟨0x100, [0x90], "pre"⟩, ⟨0x101, [0x90, 0x90], "culprit"⟩,
        (⟨0x103, [0x90], "out"⟩ : Insn)], j.overwritten ≠ "out" →
      j.address ≤ (⟨0x101, [0x90, 0x90], "culprit"⟩ : Insn).address :=
  c4_stub_layout (fun _ => "mov eax, 1") "inc ebx"
    [⟨0x100, [0x90], "pre"⟩, ⟨0x101, [0x90, 0x90], "culprit"⟩,
     ⟨0x103, [0x90], "out"⟩] ⟨0x101, [0x90, 0x90], "culprit"⟩
    (by decide) (by decide) (by decide)

/-- C5: `check_if_movable` returns `true` exactly when the comparable
textual form (mnemonic plus operands, address prefix dropped) of the
instruction's bytes is identical at the three decode bases `0x00000000`,
`0x07F00000` and `0xFE000000`. -/
theorem c5_check_if_movable_iff (cmp : List Nat → Nat → String)
    (instruction_bytes : List Nat) :
    check_if_movable cmp instruction_bytes = true ↔
      (cmp instruction_bytes 0x0 = cmp instruction_bytes 0x07f00000 ∧
       cmp instruction_bytes 0x0 = cmp instruction_bytes 0xfe000000) := by
  rw [check_if_movable]
  by_cases h : cmp instruction_bytes 0x0 = cmp instruction_bytes 0x07f00000 ∧
      cmp instruction_bytes 0x07f00000 = cmp instruction_bytes 0xfe000000
  · rw [if_pos h]
    exact ⟨fun _ => ⟨h.1, h.1.trans h.2⟩, fun _ => rfl⟩
  · rw [if_neg h]
    exact ⟨fun hfalse => absurd hfalse (by simp),
      fun hc => absurd ⟨hc.1, hc.1.symm.trans hc.2⟩ h⟩

theorem ordered_go_some (l : List Nat) (hl : l.Pairwise (· ≤ ·)) :
    ∀ p : Nat, (∀ x ∈ l, p ≤ x) →
      (ordered_nodes_go (some p) l).Pairwise (· < ·) ∧
      ∀ y ∈ ordered_nodes_go (some p) l, p < y := by
  induction l with
  | nil => intro p _; simp [ordered_nodes_go]
  | cons a t ih =>
    intro p hp
    rw [List.pairwise_cons] at hl
    obtain ⟨hat, ht⟩ := hl
    by_cases hap : some a = some p
    · rw [ordered_nodes_go, if_pos hap]
      injection hap with hap
      subst hap
      exact ih ht a hat
    · rw [ordered_nodes_go, if_neg hap]
      have hpa : p < a := by
        have := hp a (by simp)
        rcases lt_or_eq_of_le this with h | h
        · exact h
        · exact absurd (congrArg some h.symm) hap
      obtain ⟨htail, hgt⟩ := ih ht a hat
      refine ⟨List.pairwise_cons.mpr ⟨fun y hy => hgt y hy, htail⟩,
        fun y hy => ?_⟩
      rcases List.mem_cons.mp hy with rfl | hy
      · exact hpa
      · exact hpa.trans (hgt y hy)

/-- C10: `get_ordered_nodes` always returns a strictly increasing (hence
duplicate-free) list of block start addresses: it sorts the CFG node
addresses and skips every address equal to the previously kept one, which is
what makes the `bisect`-based lookup of `get_block_containing_inst`
well-defined. -/
theorem c10_ordered_nodes_strictly_increasing (cfg_node_addrs : List Nat) :
    (get_ordered_nodes cfg_node_addrs).Pairwise (· < ·) ∧
    (get_ordered_nodes cfg_node_addrs).Nodup := by
  have hmain : (get_ordered_nodes cfg_node_addrs).Pairwise (· < ·) := by
    rw [get_ordered_nodes]
    have hs : (cfg_node_addrs.insertionSort (· ≤ ·)).Pairwise (· ≤ ·) :=
      List.sorted_insertionSort (· ≤ ·) cfg_node_addrs
    cases h : cfg_node_addrs.insertionSort (· ≤ ·) with
    | nil => simp [ordered_nodes_go]
    | cons a t =>
      rw [h, List.pairwise_cons] at hs
      rw [ordered_nodes_go, if_neg (by simp)]
      exact List.pairwise_cons.mpr
        ⟨fun y hy => (ordered_go_some t hs.2 a hs.1).2 y hy,
         (ordered_go_some t hs.2 a hs.1).1⟩
  exact ⟨hmain, hmain.imp ne_of_lt⟩

theorem sorted_greatest_le (ns : List Nat) (A : Nat)
    (hsort : ns.Pairwise (· < ·)) (hpos : 0 < bisect_right ns A) :
    ∃ g, ns.get? (bisect_right ns A - 1) = some g ∧ g ∈ ns ∧ g ≤ A ∧
      ∀ b ∈ ns, b ≤ A → b ≤ g := by
  induction ns with
  | nil => simp [bisect_right] at hpos
  | cons x t ih =>
    rw [List.pairwise_cons] at hsort
    obtain ⟨hx, ht⟩ := hsort
    by_cases hxA : x ≤ A
    · have hb : bisect_right (x :: t) A = bisect_right t A + 1 := by
        simp [bisect_right, List.countP_cons, hxA]
      by_cases h0 : 0 < bisect_right t A
      · obtain ⟨g, hg1, hg2, hg3, hg4⟩ := ih ht h0
        refine ⟨g, ?_, by simp [hg2], hg3, ?_⟩
        · rw [hb]
          have : bisect_right t A + 1 - 1 = (bisect_right t A - 1) + 1 := by omega
          rw [this, List.get?_cons_succ]
          exact hg1
        · intro b hb' hbA
          rcases List.mem_cons.mp hb' with rfl | hb'
          · exact le_trans (le_of_lt (hx g hg2)) (le_refl g)
          · exact hg4 b hb' hbA
      · have hz : bisect_right t A = 0 := by omega
        have hnone : ∀ b ∈ t, ¬ b ≤ A := by
          rw [bisect_right] at hz
          have h0 := List.countP_eq_zero.mp hz
          intro b hb'
          simpa using h0 b hb'
        refine ⟨x, ?_, by simp, hxA, ?_⟩
        · rw [hb, hz]
          rfl
        · intro b hb' hbA
          rcases List.mem_cons.mp hb' with rfl | hb'
          · exact le_refl _
          · exact absurd hbA (hnone b hb')
    · exfalso
      have hz : bisect_right (x :: t) A = 0 := by
        rw [bisect_right]
        apply List.countP_eq_zero.mpr
        intro b hb'
        rcases List.mem_cons.mp hb' with rfl | hb'
        · simpa using hxA
        · have : x < b := hx b hb'
          simp only [decide_eq_true_eq]
          omega
      omega

/-- C6: assuming the CFG invariants (nonempty sorted unique node starts,
`get_any_node a` returning the node at `a`, and instruction addresses lying
at or after their block start), `get_block_containing_inst` returns exactly
the block whose start is the greatest one `≤ A` when `A` is among that
block's instruction addresses, and raises `MissingBlock` otherwise — in
particular when `A` lies below every block start (where the `-1` index wraps
to the last block, whose instruction addresses all exceed `A`). -/
theorem c6_block_lookup (get_any_node : Nat → Node) (ns : List Nat) (A : Nat)
    (hne : ns ≠ [])
    (hsort : ns.Pairwise (· < ·))
    (haddr : ∀ a ∈ ns, (get_any_node a).addr = a)
    (hge : ∀ a ∈ ns, ∀ ia ∈ (get_any_node a).instruction_addrs, a ≤ ia) :
    (∀ r, get_block_containing_inst get_any_node ns A = .ok r ↔
      (r ∈ ns ∧ r ≤ A ∧ (∀ b ∈ ns, b ≤ A → b ≤ r) ∧
        A ∈ (get_any_node r).instruction_addrs)) ∧
    (get_block_containing_inst get_any_node ns A = .error .missingBlock ∨
      ∃ r, get_block_containing_inst get_any_node ns A = .ok r) := by
  by_cases hk : bisect_right ns A = 0
  · have hnone : ∀ b ∈ ns, ¬ b ≤ A := by
      have hk2 := hk
      rw [bisect_right] at hk2
      have h0 := List.countP_eq_zero.mp hk2
      intro b hb
      simpa using h0 b hb
    have hlen : 0 < ns.length := List.length_pos.mpr hne
    have hjfit : ns.length - 1 < ns.length := by omega
    have hpy : py_get ns ((bisect_right ns A : Int) - 1) =
        .ok (ns.get ⟨ns.length - 1, hjfit⟩) := by
      rw [hk, py_get]
      norm_num
      rw [if_pos (by omega)]
      have htn : ((ns.length : Int) + (-1)).toNat = ns.length - 1 := by omega
      rw [htn, List.getElem?_eq_getElem hjfit]
    set g := ns.get ⟨ns.length - 1, hjfit⟩ with hgdef
    have hgmem : g ∈ ns := List.get_mem ns (ns.length - 1) hjfit
    have hnotin : A ∉ (get_any_node g).instruction_addrs := by
      intro hA
      exact hnone g hgmem (hge g hgmem A hA)
    have hres : get_block_containing_inst get_any_node ns A =
        .error .missingBlock := by
      rw [get_block_containing_inst, hpy]
      dsimp only
      rw [if_neg hnotin]
    refine ⟨fun r => ⟨fun h => ?_, fun h => ?_⟩, Or.inl hres⟩
    · rw [hres] at h
      exact absurd h (by simp)
    · exact absurd h.2.1 (hnone r h.1)
  · obtain ⟨g, hget, hgmem, hgA, hmax⟩ :=
      sorted_greatest_le ns A hsort (Nat.pos_of_ne_zero hk)
    have hpy : py_get ns ((bisect_right ns A : Int) - 1) = .ok g := by
      rw [py_get]
      have h1 : 0 < bisect_right ns A := Nat.pos_of_ne_zero hk
      rw [if_pos (by omega)]
      rw [if_pos (by omega)]
      have htn : ((bisect_right ns A : Int) - 1).toNat = bisect_right ns A - 1 := by
        omega
      rw [htn, hget]
    have huniq : ∀ r, (r ∈ ns ∧ r ≤ A ∧ (∀ b ∈ ns, b ≤ A → b ≤ r) ∧
        A ∈ (get_any_node r).instruction_addrs) → r = g := by
      intro r ⟨hrmem, hrA, hrmax, _⟩
      exact le_antisymm (hmax r hrmem hrA) (hrmax g hgmem hgA)
    by_cases hA : A ∈ (get_any_node g).instruction_addrs
    · have hres : get_block_containing_inst get_any_node ns A = .ok g := by
        rw [get_block_containing_inst, hpy]
        dsimp only
        rw [if_pos hA, haddr g hgmem]
      refine ⟨fun r => ⟨fun h => ?_, fun h => ?_⟩, Or.inr ⟨g, hres⟩⟩
      · rw [hres] at h
        injection h with h
        subst h
        exact ⟨hgmem, hgA, hmax, hA⟩
      · rw [hres, huniq r h]
    · have hres : get_block_containing_inst get_any_node ns A =
          .error .missingBlock := by
        rw [get_block_containing_inst, hpy]
        dsimp only
        rw [if_neg hA]
      refine ⟨fun r => ⟨fun h => ?_, fun h => ?_⟩, Or.inl hres⟩
      · rw [hres] at h
        exact absurd h (by simp)
      · exact absurd ((huniq r h) ▸ h.2.2.2) hA

/-- Witness for C6: blocks at `4` and `10`, the block at `4` containing
instruction addresses `{4, 5, 7}`; looking up `5` returns the block start
`4`. -/
theorem c6_block_lookup_witness :
    get_block_containing_inst
      (fun a => if a = 4 then ⟨4, [4, 5, 7]⟩ else ⟨10, [10]⟩) [4, 10] 5 =
      .ok 4 :=
  ((c6_block_lookup (fun a => if a = 4 then ⟨4, [4, 5, 7]⟩ else ⟨10, [10]⟩)
      [4, 10] 5 (by decide) (by decide)
      (by intro a ha; fin_cases ha <;> simp)
      (by intro a ha; fin_cases ha <;> simp)).1 4).mpr
    (by refine ⟨by decide, by decide, ?_, by decide⟩
        intro b hb hbA
        fin_cases hb <;> omega)

/-- C8: for every `InlinePatch`, the phase-3 step of `compile_patches`
assembles the new text at the target virtual address against the symbol map
and raises the `assert` (failing the compile) when the encoded length
differs from the original instruction's length; when the lengths agree it
overwrites exactly that many bytes at the instruction's file offset, leaving
the total length and every byte outside the window unchanged. -/
theorem c8_inline_length_check (o : Oracle) (name_map : List (String × Nat))
    (ncontent : List Nat) (instruction_addr : Nat) (new_asm : String) :
    ((o.compile_asm new_asm instruction_addr name_map).length ≠
        (o.factory_block instruction_addr (some 1)).size →
      apply_inline o name_map ncontent instruction_addr new_asm =
        .error .assertionError) ∧
    (∀ fo,
      (o.compile_asm new_asm instruction_addr name_map).length =
        (o.factory_block instruction_addr (some 1)).size →
      o.addr_to_offset instruction_addr = some fo →
      fo + (o.compile_asm new_asm instruction_addr name_map).length ≤
        ncontent.length →
      ∃ nc, apply_inline o name_map ncontent instruction_addr new_asm = .ok nc ∧
        nc.length = ncontent.length ∧
        (nc.drop fo).take (o.compile_asm new_asm instruction_addr name_map).length =
          o.compile_asm new_asm instruction_addr name_map ∧
        nc.take fo = ncontent.take fo ∧
        nc.drop (fo + (o.compile_asm new_asm instruction_addr name_map).length) =
          ncontent.drop
            (fo + (o.compile_asm new_asm instruction_addr name_map).length)) := by
  constructor
  · intro h
    rw [apply_inline, if_neg h]
  · intro fo hlen hfo hbound
    set new_code := o.compile_asm new_asm instruction_addr name_map with hnew
    refine ⟨str_overwrite ncontent new_code fo, ?_, ?_, ?_, ?_, ?_⟩
    · rw [apply_inline, if_pos hlen, hfo]
    · exact str_overwrite_length _ _ _ hbound
    · exact slice_str_overwrite_self _ _ _ (by omega)
    · rw [str_overwrite, List.append_assoc,
        List.take_append_of_le_length (by rw [List.length_take]; omega),
        List.take_take, min_self]
    · have hpref : (ncontent.take fo ++ new_code).length = fo + new_code.length := by
        rw [List.length_append, List.length_take_of_le (by omega)]
      rw [str_overwrite, ← hpref, List.drop_left]

/-- Witness for C8: a one-byte assembly overwriting offset `2` of a five-byte
image. -/
theorem c8_inline_length_check_witness :
    ∃ nc, apply_inline toyOracle [] [0, 1, 2, 3, 4] 2 "mov eax, 1" = .ok nc ∧
      nc.length = ([0, 1, 2, 3, 4] : List Nat).length ∧
      (nc.drop 2).take (toyOracle.compile_asm "mov eax, 1" 2 []).length =
        toyOracle.compile_asm "mov eax, 1" 2 [] ∧
      nc.take 2 = ([0, 1, 2, 3, 4] : List Nat).take 2 ∧
      nc.drop (2 + (toyOracle.compile_asm "mov eax, 1" 2 []).length) =
        ([0, 1, 2, 3, 4] : List Nat).drop
          (2 + (toyOracle.compile_asm "mov eax, 1" 2 []).length) :=
  (c8_inline_length_check toyOracle [] [0, 1, 2, 3, 4] 2 "mov eax, 1").2 2
    (by decide) (by decide) (by decide)

/-- C9: header setup is idempotent.  A second `setup_headers` run begins by
resetting `ncontent` to the stored original bytes and recomputes
deterministically, so the image bytes after two runs equal those after one;
and constructing a `Patcher` on an image that already carries the
patched-marker tag at offset `0x34` makes setup an immediate no-op, the
image staying bit-identical. -/
theorem c9_setup_headers_idempotent (st st1 : PatcherSt)
    (h : setup_headers_run st = .ok st1) :
    (∃ st2, setup_headers_run st1 = .ok st2 ∧ st2.ncontent = st1.ncontent) ∧
    ((st.ocontent.drop 0x34).take patched_tag.length = patched_tag →
      st1.ncontent = st.ocontent) := by
  cases hse : setup_headers st.ocontent with
  | error e =>
    rw [setup_headers_run, hse] at h
    exact absurd h (by simp)
  | ok v =>
    obtain ⟨nc, ohe⟩ := v
    cases ohe with
    | some voh =>
      rw [setup_headers_run, hse] at h
      dsimp only at h
      injection h with h
      have hoc : st1.ocontent = st.ocontent := by rw [← h]
      have hnc : st1.ncontent = nc := by rw [← h]
      constructor
      · refine ⟨{ st1 with ncontent := nc, original_header_end := some voh },
          ?_, by rw [hnc]⟩
        rw [setup_headers_run, hoc, hse]
      · intro htag
        have hpatched : setup_headers st.ocontent = .ok (st.ocontent, none) := by
          rw [setup_headers, if_pos (by simp [is_patched, htag])]
        rw [hpatched] at hse
        injection hse with hse
        have hnceq : nc = st.ocontent := congrArg Prod.fst hse.symm
        rw [hnc, hnceq]
    | none =>
      rw [setup_headers_run, hse] at h
      dsimp only at h
      injection h with h
      have hoc : st1.ocontent = st.ocontent := by rw [← h]
      have hnc : st1.ncontent = nc := by rw [← h]
      constructor
      · refine ⟨{ st1 with ncontent := nc }, ?_, by rw [hnc]⟩
        rw [setup_headers_run, hoc, hse]
      · intro htag
        have hpatched : setup_headers st.ocontent = .ok (st.ocontent, none) := by
          rw [setup_headers, if_pos (by simp [is_patched, htag])]
        rw [hpatched] at hse
        injection hse with hse
        have hnceq : nc = st.ocontent := congrArg Prod.fst hse.symm
        rw [hnc, hnceq]

/-- Witness for C9: a patcher opened on an already-tagged image; setup is a
no-op and re-running it keeps the bytes identical. -/
theorem c9_setup_headers_idempotent_witness :
    (∃ st2, setup_headers_run { toySt1 with ncontent := toy_base_content } = .ok st2 ∧
      st2.ncontent = ({ toySt1 with ncontent := toy_base_content } : PatcherSt).ncontent) ∧
    ((toySt1.ocontent.drop 0x34).take patched_tag.length = patched_tag →
      ({ toySt1 with ncontent := toy_base_content } : PatcherSt).ncontent =
        toySt1.ocontent) :=
  c9_setup_headers_idempotent toySt1 { toySt1 with ncontent := toy_base_content }
    (by rfl)

/-! Helper lemmas for the page-translation claim. -/

theorem land_mask (x : Nat) (h : x < 2 ^ 40) :
    x &&& 0xfffffff000 = x / 0x1000 * 0x1000 := by
  have hmask : (0xfffffff000 : Nat) = (2 ^ 28 - 1) <<< 12 := by
    rw [Nat.shiftLeft_eq]
    norm_num
  have hr : x / 0x1000 * 0x1000 = (x >>> 12) <<< 12 := by
    rw [Nat.shiftRight_eq_div_pow, Nat.shiftLeft_eq]
  apply Nat.eq_of_testBit_eq
  intro i
  rw [Nat.testBit_and, hmask, Nat.testBit_shiftLeft, hr, Nat.testBit_shiftLeft,
    Nat.testBit_shiftRight, Nat.testBit_two_pow_sub_one]
  by_cases h12 : 12 ≤ i
  · have hd : decide (i ≥ 12) = true := by simp [h12]
    rw [hd]
    simp only [Bool.true_and]
    have h1 : 12 + (i - 12) = i := by omega
    rw [h1]
    by_cases h28 : i - 12 < 28
    · simp [h28]
    · have hfalse : x.testBit i = false :=
        Nat.testBit_lt_two_pow
          (lt_of_lt_of_le h (Nat.pow_le_pow_right (by norm_num) (by omega)))
      simp [h28, hfalse]
  · simp [h12]

theorem mapM_except_ok {α β : Type} (g : α → Except PErr β) (f : α → β)
    (l : List α) (h : ∀ x ∈ l, g x = .ok (f x)) :
    l.mapM g = .ok (l.map f) := by
  induction l with
  | nil => rfl
  | cons a t ih =>
    rw [List.mapM_cons, h a (by simp), ih (fun x hx => h x (by simp [hx]))]
    rfl

theorem range'_split (s m n : Nat) :
    List.range' s (m + n) = List.range' s m ++ List.range' (s + m) n := by
  have := List.range'_append s m n 1
  simp only [one_mul, mul_one] at this
  rw [Nat.add_comm n m] at this
  exact this.symm

theorem page_chunk (pageoff : Nat → Nat) (lo len : Nat)
    (hfit : lo % 0x1000 + len ≤ 0x1000) :
    (List.range' lo len).map (fun va => pageoff (va / 0x1000) + va % 0x1000) =
      List.range' (pageoff (lo / 0x1000) + lo % 0x1000) len := by
  rw [List.range'_eq_map_range, List.range'_eq_map_range, List.map_map]
  apply List.map_congr_left
  intro k hk
  rw [List.mem_range] at hk
  have hdiv : (lo + k) / 0x1000 = lo / 0x1000 := by omega
  have hmod : (lo + k) % 0x1000 = lo % 0x1000 + k := by omega
  simp only [Function.comp_apply, hdiv, hmod]
  omega

theorem pages_image (pageoff : Nat → Nat) (q n : Nat) :
    (List.range n).flatMap
        (fun k => List.range' (pageoff (q + k)) 0x1000) =
      (List.range' (q * 0x1000) (n * 0x1000)).map
        (fun va => pageoff (va / 0x1000) + va % 0x1000) := by
  induction n with
  | zero => simp
  | succ m ih =>
    rw [List.range_succ, List.flatMap_append, ih]
    have hsplit : (m + 1) * 0x1000 = m * 0x1000 + 0x1000 := by ring
    rw [hsplit, range'_split, List.map_append]
    congr 1
    simp only [List.flatMap_cons, List.flatMap_nil, List.append_nil]
    have hchunk := page_chunk pageoff (q * 0x1000 + m * 0x1000) 0x1000 (by omega)
    have hdiv : (q * 0x1000 + m * 0x1000) / 0x1000 = q + m := by omega
    have hmod : (q * 0x1000 + m * 0x1000) % 0x1000 = 0 := by omega
    rw [hdiv, hmod, Nat.add_zero] at hchunk
    exact hchunk.symm

theorem patch_bin_go_consumes (new_content : List Nat) (rs : List (Nat × Nat)) :
    ∀ nc pos, pos + (rs.map (fun r => r.2 - r.1)).sum ≤ new_content.length →
      (patch_bin_go new_content rs nc pos).2 =
        pos + (rs.map (fun r => r.2 - r.1)).sum := by
  induction rs with
  | nil => intro nc pos _; simp [patch_bin_go]
  | cons r t ih =>
    intro nc pos hb
    obtain ⟨s, e⟩ := r
    simp only [List.map_cons, List.sum_cons] at hb ⊢
    rw [patch_bin_go]
    have hlen : ((new_content.drop pos).take (e - s)).length = e - s := by
      rw [List.length_take, List.length_drop]
      omega
    rw [hlen]
    rw [ih _ (pos + (e - s)) (by omega)]
    omega

theorem middle_pages_eval (off : Nat → Option Nat) (nstart count : Nat)
    (f : Nat → Nat) (h : ∀ k < count, off (nstart + 0x1000 * k) = some (f k)) :
    middle_pages off nstart count =
      .ok ((List.range count).map (fun k => (f k, f k + 0x1000))) := by
  apply mapM_except_ok
  intro k hk
  rw [List.mem_range] at hk
  simp only [maddress_to_baddress, h k hk]
  rfl

/-- C7: for a mapped virtual range (`size > 0`, every address translated
page-affinely by the loader), `get_memory_translation_list` splits the range
at `0x1000` granularity into file-offset ranges whose lengths sum to exactly
`size` and whose concatenated offsets are the in-order image of the virtual
addresses, so the `patch_bin` loop consumes all `len(new_content)` bytes in
order across them. -/
theorem c7_translation_covers (off : Nat → Option Nat) (pageoff : Nat → Nat)
    (address size : Nat)
    (hsize : 0 < size)
    (hbound : address + size ≤ 2 ^ 40)
    (halign : ∀ p, address / 0x1000 ≤ p → p ≤ (address + size - 1) / 0x1000 →
      pageoff p % 0x1000 = 0 ∧ pageoff p < 2 ^ 40)
    (hoff : ∀ va, address ≤ va → va < address + size →
      off va = some (pageoff (va / 0x1000) + va % 0x1000)) :
    ∃ rs, get_memory_translation_list off address size = .ok rs ∧
      (rs.map (fun r => r.2 - r.1)).sum = size ∧
      rs.flatMap (fun r => List.range' r.1 (r.2 - r.1)) =
        (List.range' address size).map
          (fun va => pageoff (va / 0x1000) + va % 0x1000) ∧
      (∀ new_content : List Nat, new_content.length = size →
        ∀ ncontent, (patch_bin_go new_content rs ncontent 0).2 = size) := by
  have heval_s : address &&& 0xfffffff000 = address / 0x1000 * 0x1000 :=
    land_mask _ (by omega)
  have heval_e : (address + size - 1) &&& 0xfffffff000 =
      (address + size - 1) / 0x1000 * 0x1000 := land_mask _ (by omega)
  have hoff_a : off address = some (pageoff (address / 0x1000) + address % 0x1000) :=
    hoff address le_rfl (by omega)
  have hoff_e : off (address + size - 1) =
      some (pageoff ((address + size - 1) / 0x1000) + (address + size - 1) % 0x1000) :=
    hoff (address + size - 1) (by omega) (by omega)
  have ha : maddress_to_baddress off address =
      .ok (pageoff (address / 0x1000) + address % 0x1000) := by
    simp only [maddress_to_baddress, hoff_a]
  have hb : maddress_to_baddress off (address + size - 1) =
      .ok (pageoff ((address + size - 1) / 0x1000) +
        (address + size - 1) % 0x1000) := by
    simp only [maddress_to_baddress, hoff_e]
  by_cases hpage : address / 0x1000 = (address + size - 1) / 0x1000
  · have hsum : pageoff (address / 0x1000) + (address + size - 1) % 0x1000 + 1 -
        (pageoff (address / 0x1000) + address % 0x1000) = size := by omega
    refine ⟨[(pageoff (address / 0x1000) + address % 0x1000,
        pageoff (address / 0x1000) + (address + size - 1) % 0x1000 + 1)],
      ?_, ?_, ?_, ?_⟩
    · rw [get_memory_translation_list]
      dsimp only
      rw [if_pos (by rw [heval_s, heval_e, hpage]), ha, hb, ← hpage]
      rfl
    · simp only [List.map_cons, List.map_nil, List.sum_cons, List.sum_nil]
      omega
    · simp only [List.flatMap_cons, List.flatMap_nil, List.append_nil]
      rw [hsum, page_chunk pageoff address size (by omega)]
    · intro new_content hlen ncontent
      rw [patch_bin_go_consumes]
      · simp only [List.map_cons, List.map_nil, List.sum_cons, List.sum_nil]
        omega
      · simp only [List.map_cons, List.map_nil, List.sum_cons, List.sum_nil]
        omega
  · have hlt : address / 0x1000 < (address + size - 1) / 0x1000 :=
      lt_of_le_of_ne (Nat.div_le_div_right (by omega)) hpage
    have hcount : ((address + size - 1) / 0x1000 * 0x1000 -
        (address / 0x1000 * 0x1000 + 0x1000)) / 0x1000 =
        (address + size - 1) / 0x1000 - address / 0x1000 - 1 := by
      omega
    have hmid_off : ∀ k < (address + size - 1) / 0x1000 - address / 0x1000 - 1,
        off (address / 0x1000 * 0x1000 + 0x1000 + 0x1000 * k) =
          some (pageoff (address / 0x1000 + 1 + k)) := by
      intro k hk
      have h1 : address ≤ address / 0x1000 * 0x1000 + 0x1000 + 0x1000 * k := by
        omega
      have h2 : address / 0x1000 * 0x1000 + 0x1000 + 0x1000 * k <
          address + size := by omega
      rw [hoff _ h1 h2]
      have hdiv : (address / 0x1000 * 0x1000 + 0x1000 + 0x1000 * k) / 0x1000 =
          address / 0x1000 + 1 + k := by omega
      have hmod : (address / 0x1000 * 0x1000 + 0x1000 + 0x1000 * k) % 0x1000 = 0 := by
        omega
      rw [hdiv, hmod, Nat.add_zero]
    have hmids := middle_pages_eval off (address / 0x1000 * 0x1000 + 0x1000)
      ((address + size - 1) / 0x1000 - address / 0x1000 - 1)
      (fun k => pageoff (address / 0x1000 + 1 + k)) hmid_off
    have hoff_ep : off ((address + size - 1) / 0x1000 * 0x1000) =
        some (pageoff ((address + size - 1) / 0x1000)) := by
      have h1 : address ≤ (address + size - 1) / 0x1000 * 0x1000 := by omega
      have h2 : (address + size - 1) / 0x1000 * 0x1000 < address + size := by omega
      rw [hoff _ h1 h2]
      have hdiv : (address + size - 1) / 0x1000 * 0x1000 / 0x1000 =
          (address + size - 1) / 0x1000 := by omega
      have hmod : (address + size - 1) / 0x1000 * 0x1000 % 0x1000 = 0 := by omega
      rw [hdiv, hmod, Nat.add_zero]
    have hep : maddress_to_baddress off ((address + size - 1) / 0x1000 * 0x1000) =
        .ok (pageoff ((address + size - 1) / 0x1000)) := by
      simp only [maddress_to_baddress, hoff_ep]
    obtain ⟨halq, haltq⟩ := halign (address / 0x1000) le_rfl (by omega)
    have hhead_mask : (pageoff (address / 0x1000) + address % 0x1000) &&&
        0xfffffff000 = pageoff (address / 0x1000) := by
      rw [land_mask _ (by omega)]
      omega
    set rs := (pageoff (address / 0x1000) + address % 0x1000,
        ((pageoff (address / 0x1000) + address % 0x1000) &&& 0xfffffff000) + 0x1000) ::
        ((List.range ((address + size - 1) / 0x1000 - address / 0x1000 - 1)).map
          (fun k => (pageoff (address / 0x1000 + 1 + k),
            pageoff (address / 0x1000 + 1 + k) + 0x1000)) ++
         [(pageoff ((address + size - 1) / 0x1000),
           pageoff ((address + size - 1) / 0x1000) +
             (address + size - 1) % 0x1000 + 1)]) with hrs
    have hsum_rs : (rs.map (fun r => r.2 - r.1)).sum = size := by
      rw [hrs, hhead_mask]
      simp only [List.map_cons, List.map_append, List.map_map, List.map_nil,
        List.sum_cons, List.sum_append, List.sum_nil]
      have hconst : ((List.range ((address + size - 1) / 0x1000 -
          address / 0x1000 - 1)).map ((fun r : Nat × Nat => r.2 - r.1) ∘
            (fun k => (pageoff (address / 0x1000 + 1 + k),
              pageoff (address / 0x1000 + 1 + k) + 0x1000)))).sum =
          ((address + size - 1) / 0x1000 - address / 0x1000 - 1) * 0x1000 := by
        rw [List.map_congr_left
          (fun k _ => show _ = (fun _ : Nat => (0x1000 : Nat)) k by simp)]
        rw [List.map_const', List.length_range, List.sum_replicate, smul_eq_mul]
      rw [hconst]
      omega
    refine ⟨rs, ?_, hsum_rs, ?_, ?_⟩
    · rw [get_memory_translation_list]
      dsimp only
      rw [if_neg (by rw [heval_s, heval_e]; omega)]
      rw [heval_s, heval_e, hcount, ha, hmids, hep, hb]
      rfl
    · rw [hrs, hhead_mask]
      simp only [List.flatMap_cons, List.flatMap_append, List.flatMap_nil,
        List.append_nil, List.flatMap_map]
      have hlen1 : pageoff (address / 0x1000) + 0x1000 -
          (pageoff (address / 0x1000) + address % 0x1000) =
          0x1000 - address % 0x1000 := by omega
      rw [hlen1]
      have hF : (fun k => List.range' (pageoff (address / 0x1000 + 1 + k))
            (pageoff (address / 0x1000 + 1 + k) + 0x1000 -
              pageoff (address / 0x1000 + 1 + k))) =
          (fun k => List.range' (pageoff (address / 0x1000 + 1 + k)) 0x1000) := by
        funext k
        congr 1
        omega
      rw [hF]
      have hlast : pageoff ((address + size - 1) / 0x1000) +
          (address + size - 1) % 0x1000 + 1 -
          pageoff ((address + size - 1) / 0x1000) =
          (address + size - 1) % 0x1000 + 1 := by omega
      rw [hlast]
      have hdecomp : List.range' address size =
          List.range' address (0x1000 - address % 0x1000) ++
          (List.range' ((address / 0x1000 + 1) * 0x1000)
            (((address + size - 1) / 0x1000 - address / 0x1000 - 1) * 0x1000) ++
           List.range' ((address + size - 1) / 0x1000 * 0x1000)
            ((address + size - 1) % 0x1000 + 1)) := by
        have h1 : size = (0x1000 - address % 0x1000) +
            (((address + size - 1) / 0x1000 - address / 0x1000 - 1) * 0x1000 +
              ((address + size - 1) % 0x1000 + 1)) := by omega
        conv_lhs => rw [h1]
        rw [range'_split]
        congr 1
        have e1 : address + (0x1000 - address % 0x1000) =
            (address / 0x1000 + 1) * 0x1000 := by omega
        rw [e1, range'_split]
        have e2 : (address / 0x1000 + 1) * 0x1000 +
            ((address + size - 1) / 0x1000 - address / 0x1000 - 1) * 0x1000 =
            (address + size - 1) / 0x1000 * 0x1000 := by
          have : address / 0x1000 + 1 +
              ((address + size - 1) / 0x1000 - address / 0x1000 - 1) =
              (address + size - 1) / 0x1000 := by omega
          calc (address / 0x1000 + 1) * 0x1000 +
              ((address + size - 1) / 0x1000 - address / 0x1000 - 1) * 0x1000 =
              (address / 0x1000 + 1 +
                ((address + size - 1) / 0x1000 - address / 0x1000 - 1)) * 0x1000 := by
                ring
            _ = (address + size - 1) / 0x1000 * 0x1000 := by rw [this]
        rw [e2]
      rw [hdecomp, List.map_append, List.map_append]
      congr 1
      · have hc := page_chunk pageoff address (0x1000 - address % 0x1000)
          (by omega)
        rw [hc]
      congr 1
      · exact pages_image pageoff (address / 0x1000 + 1)
          ((address + size - 1) / 0x1000 - address / 0x1000 - 1)
      · have hc := page_chunk pageoff ((address + size - 1) / 0x1000 * 0x1000)
          ((address + size - 1) % 0x1000 + 1) (by omega)
        have hdiv : (address + size - 1) / 0x1000 * 0x1000 / 0x1000 =
            (address + size - 1) / 0x1000 := by omega
        have hmod : (address + size - 1) / 0x1000 * 0x1000 % 0x1000 = 0 := by omega
        rw [hdiv, hmod, Nat.add_zero] at hc
        rw [hc]
        simp
    · intro new_content hlen_nc ncontent
      have h1 := patch_bin_go_consumes new_content rs ncontent 0 (by omega)
      omega

/-- Witness for C7: the identity loader map, reading 4 bytes at `0xFFE`
(crossing the page boundary at `0x1000`). -/
theorem c7_translation_covers_witness :
    ∃ rs, get_memory_translation_list (fun va => some va) 0xffe 4 = .ok rs ∧
      (rs.map (fun r => r.2 - r.1)).sum = 4 ∧
      rs.flatMap (fun r => List.range' r.1 (r.2 - r.1)) =
        (List.range' 0xffe 4).map
          (fun va => (fun q => q * 0x1000) (va / 0x1000) + va % 0x1000) ∧
      (∀ new_content : List Nat, new_content.length = 4 →
        ∀ ncontent, (patch_bin_go new_content rs ncontent 0).2 = 4) :=
  c7_translation_covers (fun va => some va) (fun q => q * 0x1000) 0xffe 4
    (by norm_num) (by norm_num)
    (by intro p h1 h2; dsimp only; constructor <;> omega)
    (by intro va h1 h2; dsimp only; congr 1; omega)

end Patcherex
